import Mathlib

/-!
# Verification of the concore2full core against its specification

This file gives a shallow embedding, in Lean 4, of the core data structures and
algorithms of the `concore2full` repository:

* the thread-pool scheduling layer (`thread_pool::enqueue`, `notify_one`,
  `worker_thread_data::try_notify`, `worker_thread_data::sleep`,
  `thread_pool::join`, `thread_pool::~thread_pool`);
* the intrusive work-line task lists (`work_line::push_unprotected`,
  `pop_unprotected`, `extract_task`, and the pool-level `extract_task`);
* the `spawn`/`await` rendezvous state machine (partially modelled from the
  specification, since `spawn_frame_base::await` / `on_async_complete` bodies
  are not among the provided sources);
* the stack-layout arithmetic of `allocate_stack` and
  `stack_control_structure`.

Machine integers are modelled as `Nat`/`Int` with explicit wrap-around where
the code relies on it.  Memory orderings (`acquire`, `release`, ...) are not
modelled; the functional content of each operation is, and interleavings of the
`spawn`/`await` rendezvous are modelled explicitly as the two possible orders
of the atomic exchange.
-/

namespace Concore

/-! ## Scheduling-level model of the thread pool

This models `thread_pool` from the source at the granularity relevant to the
enqueue / notification protocols.  A work line here is just its mutex
availability at the instant of the call plus its LIFO stack of task ids; a
worker is the `worker_thread_data` record.
-/

/-- Task identifiers, standing in for `concore2full_task*` pointers. -/
abbrev TaskId := Nat

/-- Scheduling view of one `work_line`: whether `bottleneck_` can be acquired
without blocking at this instant, and the LIFO stack of queued tasks. -/
structure SWorkLine where
  lockFree : Bool
  tasks : List TaskId
deriving DecidableEq, Repr

/-- `worker_thread_data`: the wake counter, the published start-index hint,
and the state of the wakeup token (`valid` = a sleeping thread registered it,
`notified` = `notify()` was called on it). -/
structure Worker where
  wakeRequests : Int
  startIndex : Nat
  tokenValid : Bool
  notified : Bool
deriving DecidableEq, Repr

/-- Modelled from the spec: the initial `worker_thread_data` state (the
constructor lives in `thread_pool.h`, which is not among the provided
sources).  Per the spec, `wake_requests` starts at 1. -/
def Worker.init : Worker :=
  { wakeRequests := 1, startIndex := 0, tokenValid := false, notified := false }

/-- `worker_thread_data::try_notify(hint)`: `fetch_add(1)` on `wake_requests`;
if the old value was 0, store the hint into `work_line_start_index_`, notify
the wakeup token and return true; otherwise return false. -/
def tryNotify (w : Worker) (hint : Nat) : Worker × Bool :=
  let old := w.wakeRequests
  let w1 : Worker := { w with wakeRequests := old + 1 }
  if old = 0 then
    ({ w1 with startIndex := hint, notified := true }, true)
  else
    (w1, false)

/-- `worker_thread_data::sleep(stop_requested)`: register a wakeup token,
`fetch_sub(1)` on `wake_requests`; if the returned (pre-decrement) value was 1
and stop was not requested, park.  On return: invalidate the token, re-arm
`wake_requests` to 1, and return the stored start-index hint. -/
def sleepStep (w : Worker) (stopRequested : Bool) : Worker × Bool × Nat :=
  let w1 : Worker := { w with tokenValid := true }
  let old := w1.wakeRequests
  let w2 : Worker := { w1 with wakeRequests := old - 1 }
  let parked := decide (old = 1) && !stopRequested
  let w3 : Worker := { w2 with tokenValid := false }
  let w4 : Worker := { w3 with wakeRequests := 1 }
  (w4, parked, w4.startIndex)

/-- The loop body of `thread_pool::notify_one`: call `try_notify(hint)` on
each worker in order, stopping at the first that returns true.  Failed calls
still performed their `fetch_add`; workers after the first success are left
untouched.  Returns the updated workers and the index of the notified worker,
if any. -/
def notifyFirst (hint : Nat) : List Worker → List Worker × Option Nat
  | [] => ([], none)
  | w :: rest =>
    let r := tryNotify w hint
    if r.2 then
      (r.1 :: rest, some 0)
    else
      let rr := notifyFirst hint rest
      (r.1 :: rr.1, rr.2.map (· + 1))

/-- Scheduling view of the pool: the `line_to_push_to_` counter (a `uint32_t`,
kept reduced mod `2^32`), the work lines, `num_tasks_` (a C `int`), the
workers, and the stop flag. -/
structure SPool where
  lineToPushTo : Nat
  lines : List SWorkLine
  numTasks : Int
  workers : List Worker
  stopRequested : Bool

/-- `thread_pool::notify_one(hint)`: `old = num_tasks_.fetch_add(1)`; if
`old <= int(threads_.size())`, iterate the workers calling `try_notify(hint)`,
stopping at the first success. -/
def notifyOne (p : SPool) (hint : Nat) : SPool :=
  let old := p.numTasks
  let p1 : SPool := { p with numTasks := old + 1 }
  if old ≤ (p.workers.length : Int) then
    { p1 with workers := (notifyFirst hint p1.workers).1 }
  else
    p1

/-- `work_line::try_push`: succeeds exactly when the lock can be taken without
blocking; on success the task is prepended (via `push_unprotected`). -/
def sTryPush (l : SWorkLine) (t : TaskId) : Option SWorkLine :=
  if l.lockFree then some { l with tasks := t :: l.tasks } else none

/-- `work_line::push`: blocking push; always prepends. -/
def sPush (l : SWorkLine) (t : TaskId) : SWorkLine :=
  { l with tasks := t :: l.tasks }

/-- The `for` loop of `thread_pool::enqueue`: starting at iteration `i`, try
`try_push` on line `(index + i) % N`; on success return the updated lines and
the successful line's index. -/
def enqueueTryFrom (lines : List SWorkLine) (t : TaskId) (index : Nat) (i : Nat) :
    Option (List SWorkLine × Nat) :=
  if _h : i < lines.length then
    match sTryPush (lines.getD ((index + i) % lines.length) ⟨false, []⟩) t with
    | some l => some (lines.set ((index + i) % lines.length) l, (index + i) % lines.length)
    | none => enqueueTryFrom lines t index (i + 1)
  else
    none
termination_by lines.length - i

/-- `thread_pool::enqueue(task)`: read-and-increment `line_to_push_to_`
(wrapping as a `uint32_t`), reduce mod the number of lines, try `try_push` on
lines `(index + i) % N` for `i = 0 .. N-1`, and on the first success call
`notify_one` with that line's index; if all fail, blocking-`push` on line
`index % N` and notify that line. -/
def enqueue (p : SPool) (t : TaskId) : SPool :=
  let n := p.lines.length
  let old := p.lineToPushTo
  let index := old % n
  let p1 : SPool := { p with lineToPushTo := (old + 1) % 2 ^ 32 }
  match enqueueTryFrom p1.lines t index 0 with
  | some r => notifyOne { p1 with lines := r.1 } r.2
  | none =>
      let cur := index % n
      notifyOne { p1 with lines := p1.lines.set cur (sPush (p1.lines.getD cur ⟨false, []⟩) t) } cur

/-- Spec-side restatement of the enqueue algorithm, following the claim's
words: `start = fetch_add(1) mod N`; find the least `k < N` such that line
`(start+k) mod N` accepts a `try_push`; push there and notify that line, or,
when every line refuses, blocking-push on line `start` and notify `start`. -/
def firstFreeK (lines : List SWorkLine) (start : Nat) : Option Nat :=
  (List.range lines.length).find? (fun k => (lines.getD ((start + k) % lines.length) ⟨false, []⟩).lockFree)

/-- Spec-side enqueue, per the claim's description.  To be proved equal to
`enqueue`, which is translated from the code's loop. -/
def enqueueSpec (p : SPool) (t : TaskId) : SPool :=
  let n := p.lines.length
  let start := p.lineToPushTo % n
  let p1 : SPool := { p with lineToPushTo := (p.lineToPushTo + 1) % 2 ^ 32 }
  match firstFreeK p1.lines start with
  | some k =>
      let cur := (start + k) % n
      notifyOne
        { p1 with lines := p1.lines.set cur (sPush (p1.lines.getD cur ⟨false, []⟩) t) } cur
  | none =>
      let cur := start % n
      notifyOne { p1 with lines := p1.lines.set cur (sPush (p1.lines.getD cur ⟨false, []⟩) t) } cur

/-! ### Join and destruction -/

/-- Execution trace of `thread_pool::join`: the final pool, the per-worker
`try_notify(0)` applications (results ignored by the code), and the workers
joined, in order. -/
structure JoinResult where
  pool : SPool
  notifiedAttempts : List (Worker × Bool)
  joined : List Worker

/-- `thread_pool::join()`: store `stop_requested_ = true`, call `try_notify(0)`
on every worker, join every worker thread, then clear the thread list. -/
def joinPool (p : SPool) : JoinResult :=
  let p1 : SPool := { p with stopRequested := true }
  let att := p1.workers.map (fun w => tryNotify w 0)
  { pool := { p1 with workers := [] },
    notifiedAttempts := att,
    joined := att.map Prod.fst }

/-- `thread_pool::~thread_pool()`: if `num_tasks_ > 0`, `std::terminate()`
(modelled as `none`) without joining; otherwise run `join()`. -/
def destructor (p : SPool) : Option JoinResult :=
  if p.numTasks > 0 then none else some (joinPool p)

/-! ### Helper lemmas about the notification loop -/

/-- `notifyFirst` preserves the number of workers. -/
lemma notifyFirst_length (hint : Nat) (ws : List Worker) :
    (notifyFirst hint ws).1.length = ws.length := by
  induction ws with
  | nil => simp [notifyFirst]
  | cons w rest ih =>
    simp only [notifyFirst]
    by_cases h : (tryNotify w hint).2
    · simp [h]
    · simp [h, ih]

/-- When `notifyFirst` reports a success at index `j`: `j` is in range, the
`try_notify` at `j` succeeds, every earlier `try_notify` fails (and those
workers keep their failed-attempt state), and every later worker is left
untouched. -/
lemma notifyFirst_some (hint : Nat) (ws : List Worker) (j : Nat)
    (h : (notifyFirst hint ws).2 = some j) :
    j < ws.length ∧
    (tryNotify (ws.getD j Worker.init) hint).2 = true ∧
    (∀ i, i < j → (tryNotify (ws.getD i Worker.init) hint).2 = false) ∧
    (∀ i, i ≤ j →
      (notifyFirst hint ws).1.getD i Worker.init = (tryNotify (ws.getD i Worker.init) hint).1) ∧
    (∀ i, j < i → (notifyFirst hint ws).1.getD i Worker.init = ws.getD i Worker.init) := by
  induction ws generalizing j with
  | nil => simp [notifyFirst] at h
  | cons w rest ih =>
    simp only [notifyFirst] at h
    by_cases hw : (tryNotify w hint).2
    · simp only [hw, if_pos] at h
      cases h
      refine ⟨by simp, by simpa using hw, ?_, ?_, ?_⟩
      · intro i hi; omega
      · intro i hi
        interval_cases i
        simp [notifyFirst, hw]
      · intro i hi
        match i, hi with
        | i + 1, _ => simp [notifyFirst, hw]
    · simp only [hw, if_neg, Bool.false_eq_true, not_false_iff] at h
      simp only [Option.map_eq_some'] at h
      obtain ⟨j0, hj0, rfl⟩ := h
      obtain ⟨h1, h2, h3, h4, h5⟩ := ih j0 hj0
      refine ⟨by simpa using h1, by simpa using h2, ?_, ?_, ?_⟩
      · intro i hi
        match i with
        | 0 => simpa using hw
        | i + 1 => exact h3 i (by omega)
      · intro i hi
        match i with
        | 0 => simp [notifyFirst, hw]
        | i + 1 =>
          simp only [notifyFirst, hw, Bool.false_eq_true, if_neg, not_false_iff,
            List.getD_cons_succ]
          exact h4 i (by omega)
      · intro i hi
        match i, hi with
        | i + 1, _ =>
          simp only [notifyFirst, hw, Bool.false_eq_true, if_neg, not_false_iff,
            List.getD_cons_succ]
          exact h5 i (by omega)

/-- When `notifyFirst` reports no success, every `try_notify` failed and every
worker carries its failed-attempt state. -/
lemma notifyFirst_none (hint : Nat) (ws : List Worker)
    (h : (notifyFirst hint ws).2 = none) :
    (∀ i, i < ws.length → (tryNotify (ws.getD i Worker.init) hint).2 = false) ∧
    (notifyFirst hint ws).1 = ws.map (fun w => (tryNotify w hint).1) := by
  induction ws with
  | nil => simp [notifyFirst]
  | cons w rest ih =>
    simp only [notifyFirst] at h ⊢
    by_cases hw : (tryNotify w hint).2
    · simp [hw] at h
    · simp only [hw, Bool.false_eq_true, if_neg, not_false_iff, Option.map_eq_none'] at h ⊢
      obtain ⟨h1, h2⟩ := ih h
      refine ⟨?_, by simp [h2]⟩
      intro i hi
      match i with
      | 0 => simpa using hw
      | i + 1 => exact h1 i (by simpa using hi)

/-- The enqueue loop, started at iteration `i`, behaves like a search for the
first `k ≥ i` (with `k < N`) whose line `(index+k) % N` has a free lock. -/
lemma enqueueTryFrom_eq (lines : List SWorkLine) (t : TaskId) (index : Nat) (i : Nat) :
    enqueueTryFrom lines t index i =
      ((List.range' i (lines.length - i)).find?
          (fun k => (lines.getD ((index + k) % lines.length) ⟨false, []⟩).lockFree)).map
        (fun k =>
          (lines.set ((index + k) % lines.length)
              (sPush (lines.getD ((index + k) % lines.length) ⟨false, []⟩) t),
            (index + k) % lines.length)) := by
  generalize hfuel : lines.length - i = fuel
  induction fuel generalizing i with
  | zero =>
    have hni : ¬ i < lines.length := by omega
    unfold enqueueTryFrom
    simp [hni]
  | succ m ih =>
    have hlt : i < lines.length := by omega
    have hm : lines.length - (i + 1) = m := by omega
    unfold enqueueTryFrom
    rw [dif_pos hlt]
    cases hfree : (lines.getD ((index + i) % lines.length) ⟨false, []⟩).lockFree
    · have hnone : sTryPush (lines.getD ((index + i) % lines.length) ⟨false, []⟩) t = none := by
        unfold sTryPush
        rw [hfree]
        simp
      have hneg :
          ¬ ((fun k => (lines.getD ((index + k) % lines.length) ⟨false, []⟩).lockFree) i
            = true) := by
        show ¬ (lines.getD ((index + i) % lines.length) ⟨false, []⟩).lockFree = true
        rw [hfree]
        simp
      rw [hnone, List.range'_succ]
      rw [@List.find?_cons_of_neg Nat
        (fun k => (lines.getD ((index + k) % lines.length) ⟨false, []⟩).lockFree) i
        (List.range' (i + 1) m) hneg]
      simpa using ih (i + 1) hm
    · have hsome : sTryPush (lines.getD ((index + i) % lines.length) ⟨false, []⟩) t =
          some (sPush (lines.getD ((index + i) % lines.length) ⟨false, []⟩) t) := by
        unfold sTryPush sPush
        rw [hfree]
        simp
      have hpos :
          ((fun k => (lines.getD ((index + k) % lines.length) ⟨false, []⟩).lockFree) i
            = true) := by
        show (lines.getD ((index + i) % lines.length) ⟨false, []⟩).lockFree = true
        rw [hfree]
      rw [hsome, List.range'_succ]
      rw [@List.find?_cons_of_pos Nat
        (fun k => (lines.getD ((index + k) % lines.length) ⟨false, []⟩).lockFree) i
        (List.range' (i + 1) m) hpos]
      simp

/-! ### Claim theorems for the scheduling layer -/

/-- C3: for every task `t` and pool with `N > 0` work lines, `enqueue(t)`
computes `start = fetch_add(1) mod N`, tries `try_push` on lines
`(start+k) mod N` for `k = 0..N-1` in order, and on the first success calls
`notify_one` for that line and returns; if all `N` `try_push` attempts fail,
it performs a blocking `push` on line `start` and then notifies.  Stated as:
the code's enqueue equals the spec-worded `enqueueSpec` (which searches for
the least such `k` and otherwise blocking-pushes on `start`). -/
theorem c3_enqueue_algorithm (p : SPool) (t : TaskId) :
    enqueue p t = enqueueSpec p t := by
  unfold enqueue enqueueSpec firstFreeK
  simp only [enqueueTryFrom_eq, List.range_eq_range', Nat.sub_zero]
  cases h :
      (List.range' 0 p.lines.length).find?
        (fun k =>
          (p.lines.getD ((p.lineToPushTo % p.lines.length + k) % p.lines.length)
              ⟨false, []⟩).lockFree) with
  | none => simp [h]
  | some k => simp [h]

/-- C4: `notify_one(hint)` increments `num_tasks` with `old = fetch_add(1)`,
and iterates the workers calling `try_notify(hint)` — stopping at the first
that returns true — if and only if `old ≤ N` (the number of worker threads);
when `old > N` no worker is notified (the workers are untouched). -/
theorem c4_notify_one (p : SPool) (hint : Nat) :
    (notifyOne p hint).numTasks = p.numTasks + 1 ∧
    (notifyOne p hint).workers =
      (if p.numTasks ≤ (p.workers.length : Int) then (notifyFirst hint p.workers).1
        else p.workers) ∧
    ((p.workers.length : Int) < p.numTasks → (notifyOne p hint).workers = p.workers) ∧
    (∀ ws : List Worker, ∀ j : Nat, (notifyFirst hint ws).2 = some j →
      j < ws.length ∧
      (tryNotify (ws.getD j Worker.init) hint).2 = true ∧
      (∀ i, i < j → (tryNotify (ws.getD i Worker.init) hint).2 = false) ∧
      (∀ i, j < i → (notifyFirst hint ws).1.getD i Worker.init = ws.getD i Worker.init)) := by
  refine ⟨?_, ?_, ?_, ?_⟩
  · unfold notifyOne
    by_cases h : p.numTasks ≤ (p.workers.length : Int) <;> simp [h]
  · unfold notifyOne
    by_cases h : p.numTasks ≤ (p.workers.length : Int) <;> simp [h]
  · intro h
    unfold notifyOne
    have : ¬ p.numTasks ≤ (p.workers.length : Int) := by omega
    simp [this]
  · intro ws j h
    obtain ⟨h1, h2, h3, _, h5⟩ := notifyFirst_some hint ws j h
    exact ⟨h1, h2, h3, h5⟩

/-- Witness for C4 at concrete pools: with `num_tasks = 5 > 1` worker the
workers are untouched, and a worker with `wake_requests = 0` is the first
notified. -/
theorem c4_notify_one_witness :
    (notifyOne ⟨0, [], 5, [Worker.init], false⟩ 0).workers = [Worker.init] ∧
    ((tryNotify (([(⟨0, 0, false, false⟩ : Worker)] : List Worker).getD 0 Worker.init) 0).2
      = true) := by
  have h := c4_notify_one ⟨0, [], 5, [Worker.init], false⟩ 0
  have h2 := c4_notify_one ⟨0, [], 0, [(⟨0, 0, false, false⟩ : Worker)], false⟩ 0
  exact ⟨h.2.2.1 (by decide),
    (h2.2.2.2 [(⟨0, 0, false, false⟩ : Worker)] 0 (by decide)).2.1⟩

/-- C5: the `wake_requests` protocol: a worker's `wake_requests` starts at 1;
`try_notify(hint)` returns true iff its `fetch_add(1)` read 0, in which case
it stores `hint` into the worker's start index and notifies the wakeup token,
and returns false otherwise (having still incremented the counter); `sleep`
decrements `wake_requests` and parks only when the value read by the
decrement was 1 and stop was not requested, then on return invalidates the
token, re-arms `wake_requests` to 1, and returns the stored start-index
hint. -/
theorem c5_wake_requests_protocol :
    Worker.init.wakeRequests = 1 ∧
    (∀ w : Worker, ∀ hint : Nat, ((tryNotify w hint).2 = true ↔ w.wakeRequests = 0)) ∧
    (∀ w : Worker, ∀ hint : Nat,
      (tryNotify w hint).1 =
        if w.wakeRequests = 0 then
          { w with wakeRequests := w.wakeRequests + 1, startIndex := hint, notified := true }
        else
          { w with wakeRequests := w.wakeRequests + 1 }) ∧
    (∀ w : Worker, ∀ stop : Bool,
      (sleepStep w stop).2.1 = (decide (w.wakeRequests = 1) && !stop) ∧
      (sleepStep w stop).1.wakeRequests = 1 ∧
      (sleepStep w stop).1.tokenValid = false ∧
      (sleepStep w stop).2.2 = w.startIndex) := by
  refine ⟨rfl, ?_, ?_, ?_⟩
  · intro w hint
    unfold tryNotify
    by_cases h : w.wakeRequests = 0 <;> simp [h]
  · intro w hint
    unfold tryNotify
    by_cases h : w.wakeRequests = 0 <;> simp [h]
  · intro w stop
    unfold sleepStep
    exact ⟨rfl, rfl, rfl, rfl⟩

/-- C8: destroying the thread pool while `num_tasks > 0` aborts the process
(`std::terminate`, modelled as `none`) without joining; otherwise the
destructor runs `join()`, which stores `stop_requested`, calls `try_notify`
with hint 0 on every worker, and then joins every worker thread.  (Memory
orderings are outside the sequential model.) -/
theorem c8_destructor_drain (p : SPool) :
    (0 < p.numTasks → destructor p = none) ∧
    (p.numTasks ≤ 0 →
      destructor p = some (joinPool p) ∧
      (joinPool p).pool.stopRequested = true ∧
      (joinPool p).notifiedAttempts = p.workers.map (fun w => tryNotify w 0) ∧
      (joinPool p).joined = p.workers.map (fun w => (tryNotify w 0).1) ∧
      (joinPool p).joined.length = p.workers.length ∧
      (joinPool p).pool.workers = [] ∧
      (joinPool p).pool.numTasks = p.numTasks) := by
  constructor
  · intro h
    unfold destructor
    simp [h]
  · intro h
    have hnot : ¬ p.numTasks > 0 := by omega
    refine ⟨by unfold destructor; simp [hnot], rfl, rfl, ?_, ?_, rfl, rfl⟩
    · unfold joinPool
      simp [List.map_map]
    · unfold joinPool
      simp

/-- Witness for C8: a pool with one outstanding task terminates; a drained
pool with one worker joins it after notifying it. -/
theorem c8_destructor_drain_witness :
    destructor ⟨0, [], 1, [Worker.init], false⟩ = none ∧
    destructor ⟨0, [], 0, [Worker.init], false⟩ =
      some (joinPool ⟨0, [], 0, [Worker.init], false⟩) ∧
    (joinPool ⟨0, [], 0, [Worker.init], false⟩).joined.length = 1 := by
  have h1 := c8_destructor_drain ⟨0, [], 1, [Worker.init], false⟩
  have h2 := c8_destructor_drain ⟨0, [], 0, [Worker.init], false⟩
  exact ⟨h1.1 (by decide), (h2.2 (by decide)).1, by
    have := (h2.2 (by decide)).2.2.2.2.1
    simpa using this⟩

/-! ## Pointer-level model of the intrusive work-line lists

`concore2full_task` carries `next_`, `prev_link_` (the address of the pointer
that points at this node) and `worker_data_` (the owning `work_line`, or
null).  A pointer slot is either a line's `tasks_stack_` head or some task's
`next_` field; the heap maps every task id to its node and every line to its
head. -/

/-- A pointer slot that can hold a `concore2full_task*`: a work line's
`tasks_stack_` field, or the `next_` field of a task. -/
inductive Slot where
  | headSlot (line : Nat)
  | nextSlot (t : TaskId)
deriving DecidableEq, Repr

/-- The fields of one `concore2full_task`. -/
structure TaskNode where
  next : Option TaskId
  prevLink : Option Slot
  workerData : Option Nat
deriving DecidableEq, Repr

/-- A fully detached task (`next_`, `prev_link_`, `worker_data_` all null). -/
def TaskNode.detached : TaskNode := ⟨none, none, none⟩

/-- The heap: every task's fields, and every work line's `tasks_stack_`. -/
structure Heap where
  nodes : TaskId → TaskNode
  heads : Nat → Option TaskId

/-- The empty heap: all tasks detached, all lines empty. -/
def Heap.empty : Heap :=
  { nodes := fun _ => TaskNode.detached, heads := fun _ => none }

/-- Overwrite one task's fields. -/
def Heap.setNode (σ : Heap) (t : TaskId) (nd : TaskNode) : Heap :=
  { σ with nodes := fun u => if u = t then nd else σ.nodes u }

/-- Overwrite one line's `tasks_stack_`. -/
def Heap.setHead (σ : Heap) (L : Nat) (h : Option TaskId) : Heap :=
  { σ with heads := fun M => if M = L then h else σ.heads M }

/-- Dereference a pointer slot. -/
def Heap.readSlot (σ : Heap) : Slot → Option TaskId
  | .headSlot L => σ.heads L
  | .nextSlot t => (σ.nodes t).next

/-- Write through a pointer slot (`*slot = v`). -/
def Heap.writeSlot (σ : Heap) : Slot → Option TaskId → Heap
  | .headSlot L, v => σ.setHead L v
  | .nextSlot t, v => σ.setNode t { σ.nodes t with next := v }

/-- `work_line::push_unprotected(task)` on line `L`, statement by statement:
`task->worker_data_ = this; task->next_ = tasks_stack_;
if (tasks_stack_) tasks_stack_->prev_link_ = &task->next_;
task->prev_link_ = &tasks_stack_; tasks_stack_ = task;`. -/
def pushUnprotected (σ : Heap) (L : Nat) (t : TaskId) : Heap :=
  let σ1 := σ.setNode t { σ.nodes t with workerData := some L }
  let σ2 := σ1.setNode t { σ1.nodes t with next := σ1.heads L }
  let σ3 :=
    match σ2.heads L with
    | some h => σ2.setNode h { σ2.nodes h with prevLink := some (.nextSlot t) }
    | none => σ2
  let σ4 := σ3.setNode t { σ3.nodes t with prevLink := some (.headSlot L) }
  σ4.setHead L (some t)

/-- `work_line::pop_unprotected()` on line `L`: if the stack is non-empty,
`res = tasks_stack_; tasks_stack_ = res->next_;
if (tasks_stack_) tasks_stack_->prev_link_ = &tasks_stack_;
res->prev_link_ = nullptr; res->worker_data_ = nullptr; return res;`
otherwise return null.  (A sequential `try_pop` always acquires the lock, so
the only null case is the empty line.) -/
def popUnprotected (σ : Heap) (L : Nat) : Heap × Option TaskId :=
  match σ.heads L with
  | some res =>
    let σ1 := σ.setHead L ((σ.nodes res).next)
    let σ2 :=
      match σ1.heads L with
      | some h2 => σ1.setNode h2 { σ1.nodes h2 with prevLink := some (.headSlot L) }
      | none => σ1
    let σ3 := σ2.setNode res { σ2.nodes res with prevLink := none }
    let σ4 := σ3.setNode res { σ3.nodes res with workerData := none }
    (σ4, some res)
  | none => (σ, none)

/-- `work_line::extract_task(task)`: under the lock, if `task->worker_data_`
is non-null, unlink via `*task->prev_link_ = task->next_;
if (task->next_) task->next_->prev_link_ = task->prev_link_;` then clear
`worker_data_` and `prev_link_` and return true; otherwise return false.
The branch with a null `prev_link_` is excluded by the code's assertions
(debug `check_list`); the model then skips the unlink writes. -/
def extractTask (σ : Heap) (t : TaskId) : Heap × Bool :=
  match (σ.nodes t).workerData with
  | some _ =>
    match (σ.nodes t).prevLink with
    | some s =>
      let σ1 := σ.writeSlot s ((σ.nodes t).next)
      let σ2 :=
        match (σ1.nodes t).next with
        | some nx => σ1.setNode nx { σ1.nodes nx with prevLink := some s }
        | none => σ1
      let σ3 := σ2.setNode t { σ2.nodes t with workerData := none }
      σ3.setNode t { σ3.nodes t with prevLink := none } |> (·, true)
    | none => (σ, true)
  | none => (σ, false)

/-- `thread_pool` state for the counting claims: the heap plus `num_tasks_`. -/
structure MPool where
  heap : Heap
  numTasks : Int

/-- `thread_pool::extract_task(task)`: read `task->worker_data_`; if null,
fail; otherwise run the line's `extract_task` and, on success, decrement
`num_tasks_`. -/
def poolExtract (p : MPool) (t : TaskId) : MPool × Bool :=
  match (p.heap.nodes t).workerData with
  | none => (p, false)
  | some _ =>
    let r := extractTask p.heap t
    if r.2 then ({ heap := r.1, numTasks := p.numTasks - 1 }, true)
    else ({ p with heap := r.1 }, false)

/-- The pool operations whose sequences the invariants quantify over:
`push L t` is an enqueue routed to line `L` (its `num_tasks_` increment
happens inside `notify_one`, right after the push); `tryPop L` is a worker
popping from line `L` before executing the task (decrementing `num_tasks_` on
a hit); `extract t` is `thread_pool::extract_task`. -/
inductive Op where
  | push (L : Nat) (t : TaskId)
  | tryPop (L : Nat)
  | extract (t : TaskId)
deriving DecidableEq, Repr

/-- Apply one operation; the second component is the task a worker popped for
execution, if any. -/
def applyOp (p : MPool) : Op → MPool × Option TaskId
  | .push L t =>
    ({ heap := pushUnprotected p.heap L t, numTasks := p.numTasks + 1 }, none)
  | .tryPop L =>
    let r := popUnprotected p.heap L
    match r.2 with
    | some t => ({ heap := r.1, numTasks := p.numTasks - 1 }, some t)
    | none => ({ p with heap := r.1 }, none)
  | .extract t => ((poolExtract p t).1, none)

/-- Apply a sequence of operations, collecting every task handed to a worker
for execution. -/
def applyOps (p : MPool) : List Op → MPool × List TaskId
  | [] => (p, [])
  | op :: ops =>
    let r := applyOp p op
    let rest := applyOps r.1 ops
    (rest.1, r.2.toList ++ rest.2)

/-- Validity of one operation, reflecting the callers' contracts: a pushed
task is detached (`enqueue` nulls its links and a task is enqueued only when
not already in a line) and line indices are in range. -/
def validOp (N : Nat) (σ : Heap) : Op → Bool
  | .push L t => decide (L < N) && decide ((σ.nodes t).workerData = none)
  | .tryPop L => decide (L < N)
  | .extract _ => true

/-- Validity of a sequence of operations against a pool with `N` lines. -/
def validSeq (N : Nat) (p : MPool) : List Op → Bool
  | [] => true
  | op :: ops => validOp N p.heap op && validSeq N (applyOp p op).1 ops

/-- The representation predicate: starting from slot `s`, the chain of
`next_` pointers spells exactly the list `l`, every node's `prev_link_`
points at the slot that points at it, and every node's `worker_data_` is line
`L`. -/
def rep (σ : Heap) (L : Nat) : Slot → List TaskId → Prop
  | s, [] => σ.readSlot s = none
  | s, t :: rest =>
    σ.readSlot s = some t ∧
    (σ.nodes t).prevLink = some s ∧
    (σ.nodes t).workerData = some L ∧
    rep σ L (.nextSlot t) rest

/-- The pool invariant: each line `L < N` is represented by the abstract list
`ls L` without duplicates, a non-null `worker_data_` always names an
in-range line containing the task, and lines at or beyond `N` are empty. -/
structure PoolInv (σ : Heap) (N : Nat) (ls : Nat → List TaskId) : Prop where
  lists : ∀ L, L < N → rep σ L (.headSlot L) (ls L)
  nodup : ∀ L, L < N → (ls L).Nodup
  wdMem : ∀ t L, (σ.nodes t).workerData = some L → L < N ∧ t ∈ ls L
  emptyHigh : ∀ L, N ≤ L → ls L = []

/-- Abstract effect of one operation on the per-line lists. -/
def applyAbs (ls : Nat → List TaskId) : Op → Nat → List TaskId
  | .push L t => Function.update ls L (t :: ls L)
  | .tryPop L => Function.update ls L (ls L).tail
  | .extract t => fun M => (ls M).erase t

/-- Abstract effect of a sequence of operations. -/
def applyAbsSeq (ls : Nat → List TaskId) : List Op → Nat → List TaskId
  | [] => ls
  | op :: ops => applyAbsSeq (applyAbs ls op) ops

/-! ### Heap access lemmas -/

@[simp] lemma setNode_nodes (σ : Heap) (t : TaskId) (nd : TaskNode) (u : TaskId) :
    (σ.setNode t nd).nodes u = if u = t then nd else σ.nodes u := rfl

@[simp] lemma setNode_heads (σ : Heap) (t : TaskId) (nd : TaskNode) (M : Nat) :
    (σ.setNode t nd).heads M = σ.heads M := rfl

@[simp] lemma setHead_heads (σ : Heap) (L : Nat) (h : Option TaskId) (M : Nat) :
    (σ.setHead L h).heads M = if M = L then h else σ.heads M := rfl

@[simp] lemma setHead_nodes (σ : Heap) (L : Nat) (h : Option TaskId) (u : TaskId) :
    (σ.setHead L h).nodes u = σ.nodes u := rfl

/-- Pointwise effect of `push_unprotected` on task fields. -/
lemma push_nodes (σ : Heap) (L : Nat) (t u : TaskId) :
    (pushUnprotected σ L t).nodes u =
      if u = t then ⟨σ.heads L, some (.headSlot L), some L⟩
      else if σ.heads L = some u then { σ.nodes u with prevLink := some (.nextSlot t) }
      else σ.nodes u := by
  unfold pushUnprotected
  cases hh : σ.heads L with
  | none =>
    by_cases hu : u = t <;> simp [hh, hu]
  | some h =>
    by_cases hu : u = t
    · subst hu
      by_cases hht : h = u
      · simp [hh, hht]
      · have hut : ¬ u = h := fun hc => hht hc.symm
        simp [hh, hht, hut]
    · by_cases hhu : h = u
      · subst hhu
        have h1 : ¬ t = h := fun hc => hu hc.symm
        simp [hh, hu, h1]
      · have h2 : ¬ u = h := fun hc => hhu hc.symm
        simp [hh, hu, hhu, h2]

/-- Pointwise effect of `push_unprotected` on line heads. -/
lemma push_heads (σ : Heap) (L : Nat) (t : TaskId) (M : Nat) :
    (pushUnprotected σ L t).heads M = if M = L then some t else σ.heads M := by
  unfold pushUnprotected
  cases hh : σ.heads L <;> by_cases hm : M = L <;> simp [hh, hm]

/-- Popping an empty line is a no-op returning null. -/
lemma pop_empty (σ : Heap) (L : Nat) (h : σ.heads L = none) :
    popUnprotected σ L = (σ, none) := by
  unfold popUnprotected
  rw [h]

/-- `pop_unprotected` returns the line's head. -/
lemma pop_val (σ : Heap) (L : Nat) : (popUnprotected σ L).2 = σ.heads L := by
  unfold popUnprotected
  cases h : σ.heads L <;> simp [h]

/-- Pointwise effect of a successful `pop_unprotected` on task fields. -/
lemma pop_nodes (σ : Heap) (L : Nat) (res u : TaskId) (h : σ.heads L = some res) :
    (popUnprotected σ L).1.nodes u =
      if u = res then ⟨(σ.nodes res).next, none, none⟩
      else if (σ.nodes res).next = some u then { σ.nodes u with prevLink := some (.headSlot L) }
      else σ.nodes u := by
  unfold popUnprotected
  rw [h]
  cases hn : (σ.nodes res).next with
  | none =>
    by_cases hu : u = res <;> simp [hn, hu]
  | some h2 =>
    by_cases hu : u = res
    · subst hu
      by_cases hh2 : h2 = u
      · simp [hn, hh2]
      · have hut : ¬ u = h2 := fun hc => hh2 hc.symm
        simp [hn, hh2, hut]
    · by_cases hh2 : h2 = u
      · subst hh2
        have h1 : ¬ res = h2 := fun hc => hu hc.symm
        simp [hn, hu, h1]
      · have h3 : ¬ u = h2 := fun hc => hh2 hc.symm
        simp [hn, hu, hh2, h3]

/-- Pointwise effect of a successful `pop_unprotected` on line heads. -/
lemma pop_heads (σ : Heap) (L : Nat) (res : TaskId) (M : Nat) (h : σ.heads L = some res) :
    (popUnprotected σ L).1.heads M = if M = L then (σ.nodes res).next else σ.heads M := by
  unfold popUnprotected
  rw [h]
  cases hn : (σ.nodes res).next <;> by_cases hm : M = L <;> simp [hn, hm]

/-- `extract_task` on a detached task is a failing no-op. -/
lemma extract_detached (σ : Heap) (t : TaskId) (h : (σ.nodes t).workerData = none) :
    extractTask σ t = (σ, false) := by
  unfold extractTask
  rw [h]

/-- `extract_task` on an owned task with a valid back-pointer succeeds. -/
lemma extract_val (σ : Heap) (t : TaskId) (w : Nat) (s : Slot)
    (hwd : (σ.nodes t).workerData = some w) (hpl : (σ.nodes t).prevLink = some s) :
    (extractTask σ t).2 = true := by
  unfold extractTask
  rw [hwd, hpl]

/-- Pointwise effect of a successful `extract_task` on line heads. -/
lemma extract_heads (σ : Heap) (t : TaskId) (w : Nat) (s : Slot) (M : Nat)
    (hwd : (σ.nodes t).workerData = some w) (hpl : (σ.nodes t).prevLink = some s)
    (hst : s ≠ .nextSlot t) :
    (extractTask σ t).1.heads M =
      if s = .headSlot M then (σ.nodes t).next else σ.heads M := by
  unfold extractTask
  rw [hwd, hpl]
  cases s with
  | headSlot K =>
    by_cases hm : K = M
    · subst hm
      cases hnx : (σ.nodes t).next <;> simp [Heap.writeSlot, hnx]
    · have hm2 : ¬ M = K := fun hc => hm hc.symm
      have hm3 : ¬ (Slot.headSlot K = Slot.headSlot M) := by
        simp [Slot.headSlot.injEq, hm]
      cases hnx : (σ.nodes t).next <;> simp [Heap.writeSlot, hnx, hm2, hm3]
  | nextSlot v =>
    have hvt : ¬ t = v := fun hc => hst (by rw [hc])
    cases hnx : (σ.nodes t).next <;> simp [Heap.writeSlot, hvt, hnx]

/-- The extracted task itself ends detached, with `next_` untouched. -/
lemma extract_nodes_self (σ : Heap) (t : TaskId) (w : Nat) (s : Slot)
    (hwd : (σ.nodes t).workerData = some w) (hpl : (σ.nodes t).prevLink = some s)
    (hst : s ≠ .nextSlot t)
    (hnxt : ∀ nx, (σ.nodes t).next = some nx → nx ≠ t) :
    (extractTask σ t).1.nodes t = ⟨(σ.nodes t).next, none, none⟩ := by
  unfold extractTask
  rw [hwd, hpl]
  cases s with
  | headSlot K =>
    cases hnx : (σ.nodes t).next with
    | none => simp [Heap.writeSlot, hnx]
    | some nx =>
      have hnt : ¬ t = nx := fun hc => (hnxt nx hnx) hc.symm
      simp [Heap.writeSlot, hnx, hnt]
  | nextSlot v =>
    have hvt : ¬ t = v := fun hc => hst (by rw [hc])
    cases hnx : (σ.nodes t).next with
    | none => simp [Heap.writeSlot, hvt, hnx]
    | some nx =>
      have hnt : ¬ t = nx := fun hc => (hnxt nx hnx) hc.symm
      simp [Heap.writeSlot, hvt, hnx, hnt]

/-- Pointwise effect of a successful `extract_task` on every other task. -/
lemma extract_nodes (σ : Heap) (t : TaskId) (w : Nat) (s : Slot) (u : TaskId)
    (hwd : (σ.nodes t).workerData = some w) (hpl : (σ.nodes t).prevLink = some s)
    (hst : s ≠ .nextSlot t)
    (hnxt : ∀ nx, (σ.nodes t).next = some nx → nx ≠ t ∧ s ≠ .nextSlot nx)
    (hut : u ≠ t) :
    (extractTask σ t).1.nodes u =
      if (σ.nodes t).next = some u then { σ.nodes u with prevLink := some s }
      else if s = .nextSlot u then { σ.nodes u with next := (σ.nodes t).next }
      else σ.nodes u := by
  unfold extractTask
  rw [hwd, hpl]
  cases s with
  | headSlot K =>
    cases hnx : (σ.nodes t).next with
    | none => simp [Heap.writeSlot, hnx, hut]
    | some nx =>
      by_cases hun : u = nx
      · subst hun
        simp [Heap.writeSlot, hnx, hut]
      · have hun2 : ¬ nx = u := fun hc => hun hc.symm
        simp [Heap.writeSlot, hnx, hut, hun, hun2]
  | nextSlot v =>
    have hvt : ¬ t = v := fun hc => hst (by rw [hc])
    cases hnx : (σ.nodes t).next with
    | none =>
      by_cases huv : u = v
      · subst huv
        simp [Heap.writeSlot, hvt, hnx, hut]
      · have huv2 : ¬ v = u := fun hc => huv hc.symm
        simp [Heap.writeSlot, hvt, hnx, hut, huv, huv2]
    | some nx =>
      have hnv : ¬ nx = v := fun hc => ((hnxt nx hnx).2 (by rw [hc])).elim
      by_cases hun : u = nx
      · subst hun
        have hnv2 : ¬ v = u := fun hc => hnv hc.symm
        simp [Heap.writeSlot, hvt, hnx, hut, hnv, hnv2]
      · have hun2 : ¬ nx = u := fun hc => hun hc.symm
        by_cases huv : u = v
        · subst huv
          simp [Heap.writeSlot, hvt, hnx, hut, hun, hun2]
        · have huv2 : ¬ v = u := fun hc => huv hc.symm
          simp [Heap.writeSlot, hvt, hnx, hut, hun, hun2, huv, huv2]

/-- `rep` only depends on the fields of the listed nodes and the entry slot. -/
lemma rep_congr {σ σ' : Heap} {L : Nat} :
    ∀ {s : Slot} {l : List TaskId},
      (∀ u ∈ l, σ'.nodes u = σ.nodes u) → σ'.readSlot s = σ.readSlot s →
      rep σ L s l → rep σ' L s l := by
  intro s l
  induction l generalizing s with
  | nil =>
    intro _ hs h
    simpa [rep, hs] using h
  | cons t rest ih =>
    intro hn hs h
    obtain ⟨h1, h2, h3, h4⟩ := h
    have hnt : σ'.nodes t = σ.nodes t := hn t (by simp)
    refine ⟨by rw [hs, h1], by rw [hnt]; exact h2, by rw [hnt]; exact h3, ?_⟩
    refine ih (fun u hu => hn u (by simp [hu])) ?_ h4
    show (σ'.nodes t).next = (σ.nodes t).next
    rw [hnt]

/-- Every listed node's `worker_data_` is the line. -/
lemma rep_mem_wd {σ : Heap} {L : Nat} :
    ∀ {s : Slot} {l : List TaskId} {t : TaskId},
      rep σ L s l → t ∈ l → (σ.nodes t).workerData = some L := by
  intro s l
  induction l generalizing s with
  | nil => intro t _ ht; simp at ht
  | cons u rest ih =>
    intro t h ht
    obtain ⟨_, _, h3, h4⟩ := h
    rcases List.mem_cons.mp ht with rfl | ht2
    · exact h3
    · exact ih h4 ht2

/-- The entry slot reads the head of the list. -/
lemma rep_head_eq {σ : Heap} {L : Nat} {s : Slot} {l : List TaskId}
    (h : rep σ L s l) : σ.readSlot s = l.head? := by
  cases l with
  | nil => simpa [rep] using h
  | cons t rest => exact h.1

/-- Inside a represented list, `next_` pointers stay in the list. -/
lemma rep_next_mem {σ : Heap} {L : Nat} :
    ∀ {s : Slot} {l : List TaskId} {u v : TaskId},
      rep σ L s l → u ∈ l → (σ.nodes u).next = some v → v ∈ l := by
  intro s l
  induction l generalizing s with
  | nil => intro u v _ hu; simp at hu
  | cons t rest ih =>
    intro u v h hu hnext
    obtain ⟨h1, h2, h3, h4⟩ := h
    rcases List.mem_cons.mp hu with rfl | hu2
    · have : σ.readSlot (.nextSlot u) = rest.head? := rep_head_eq h4
      have hv : rest.head? = some v := by
        rw [← this]
        exact hnext
      exact List.mem_cons_of_mem _ (List.mem_of_mem_head? hv)
    · exact List.mem_cons_of_mem _ (ih h4 hu2 hnext)

/-- Decompose a represented list at an interior element: its back-pointer
slot reads back to it, and the tail after it is represented from its
`next_`. -/
lemma rep_split {σ : Heap} {L : Nat} {t : TaskId} :
    ∀ (l₁ : List TaskId) {l₂ : List TaskId} {s₀ : Slot},
      rep σ L s₀ (l₁ ++ t :: l₂) →
      ∃ s, (σ.nodes t).prevLink = some s ∧ σ.readSlot s = some t ∧
        rep σ L (.nextSlot t) l₂ ∧ (σ.nodes t).workerData = some L := by
  intro l₁
  induction l₁ with
  | nil =>
    intro l₂ s₀ h
    obtain ⟨h1, h2, h3, h4⟩ := h
    exact ⟨s₀, h2, h1, h4, h3⟩
  | cons u rest ih =>
    intro l₂ s₀ h
    exact ih h.2.2.2

@[simp] lemma readSlot_head (σ : Heap) (K : Nat) : σ.readSlot (.headSlot K) = σ.heads K := rfl

@[simp] lemma readSlot_next (σ : Heap) (t : TaskId) :
    σ.readSlot (.nextSlot t) = (σ.nodes t).next := rfl

/-- A task with null `worker_data_` is in no line. -/
lemma inv_not_mem {σ : Heap} {N : Nat} {ls : Nat → List TaskId} {t : TaskId}
    (hinv : PoolInv σ N ls) (hwd : (σ.nodes t).workerData = none) :
    ∀ M, M < N → t ∉ ls M := by
  intro M hM hmem
  have h := rep_mem_wd (hinv.lists M hM) hmem
  rw [hwd] at h
  cases h

/-- Lines are pairwise disjoint. -/
lemma inv_disjoint {σ : Heap} {N : Nat} {ls : Nat → List TaskId} {t : TaskId} {M K : Nat}
    (hinv : PoolInv σ N ls) (hM : M < N) (hK : K < N)
    (htM : t ∈ ls M) (htK : t ∈ ls K) : M = K := by
  have h1 := rep_mem_wd (hinv.lists M hM) htM
  have h2 := rep_mem_wd (hinv.lists K hK) htK
  rw [h1] at h2
  exact (Option.some.injEq _ _).mp h2

/-- `push_unprotected` preserves the pool invariant, prepending the task. -/
lemma poolInv_push {σ : Heap} {N : Nat} {ls : Nat → List TaskId} {L : Nat} {t : TaskId}
    (hinv : PoolInv σ N ls) (hL : L < N) (hwd : (σ.nodes t).workerData = none) :
    PoolInv (pushUnprotected σ L t) N (Function.update ls L (t :: ls L)) := by
  have htnot := inv_not_mem hinv hwd
  have hheadmem : ∀ (h : TaskId), σ.heads L = some h → h ∈ ls L := by
    intro h hh
    have := rep_head_eq (hinv.lists L hL)
    rw [readSlot_head, hh] at this
    exact List.mem_of_mem_head? this.symm
  constructor
  · -- lists
    intro K hK
    by_cases hKL : K = L
    · subst hKL
      rw [Function.update_same]
      refine ⟨?_, ?_, ?_, ?_⟩
      · rw [readSlot_head, push_heads]
        simp
      · rw [push_nodes]
        simp
      · rw [push_nodes]
        simp
      · have hold := hinv.lists K hK
        cases hls : ls K with
        | nil =>
          rw [hls] at hold
          have hhK : σ.heads K = none := hold
          show (pushUnprotected σ K t).readSlot (.nextSlot t) = none
          rw [readSlot_next, push_nodes]
          simp [hhK]
        | cons h rest =>
          rw [hls] at hold
          obtain ⟨o1, o2, o3, o4⟩ := hold
          have hhK : σ.heads K = some h := o1
          have hhmem : h ∈ ls K := by
            rw [hls]
            exact List.mem_cons_self h rest
          have hht : ¬ h = t := fun hc => htnot K hK (hc ▸ hhmem)
          have hrestmem : ∀ u ∈ rest, u ∈ ls K := by
            intro u hu
            rw [hls]
            exact List.mem_cons_of_mem _ hu
          have hnodup := hinv.nodup K hK
          rw [hls] at hnodup
          have hhrest : h ∉ rest := (List.nodup_cons.mp hnodup).1
          refine ⟨?_, ?_, ?_, ?_⟩
          · rw [readSlot_next, push_nodes]
            simp [hhK]
          · rw [push_nodes]
            simp [hht, hhK]
          · rw [push_nodes]
            simp [hht, hhK, o3]
          · refine rep_congr ?_ ?_ o4
            · intro u hu
              have hut : ¬ u = t := fun hc => htnot K hK (hc ▸ hrestmem u hu)
              have huh : ¬ h = u := fun hc => hhrest (hc ▸ hu)
              rw [push_nodes]
              simp [hut, hhK, huh]
            · rw [readSlot_next, readSlot_next, push_nodes]
              simp [hht, hhK]
    · rw [Function.update_noteq hKL]
      refine rep_congr ?_ ?_ (hinv.lists K hK)
      · intro u hu
        have hut : ¬ u = t := fun hc => htnot K hK (hc ▸ hu)
        have huh : σ.heads L = some u → False := by
          intro hh
          have humem : u ∈ ls L := hheadmem u hh
          exact hKL (inv_disjoint hinv hK hL hu humem)
        rw [push_nodes]
        by_cases hhu : σ.heads L = some u
        · exact (huh hhu).elim
        · simp [hut, hhu]
      · rw [readSlot_head, readSlot_head, push_heads]
        simp [hKL]
  · -- nodup
    intro K hK
    by_cases hKL : K = L
    · subst hKL
      rw [Function.update_same]
      exact List.nodup_cons.mpr ⟨htnot K hK, hinv.nodup K hK⟩
    · rw [Function.update_noteq hKL]
      exact hinv.nodup K hK
  · -- wdMem
    intro u K hu
    rw [push_nodes] at hu
    by_cases hut : u = t
    · subst hut
      simp at hu
      subst hu
      refine ⟨hL, ?_⟩
      rw [Function.update_same]
      exact List.mem_cons_self _ _
    · have hwdold : (σ.nodes u).workerData = some K := by
        by_cases hhu : σ.heads L = some u
        · simpa [hut, hhu] using hu
        · simpa [hut, hhu] using hu
      obtain ⟨hKN, humem⟩ := hinv.wdMem u K hwdold
      refine ⟨hKN, ?_⟩
      by_cases hKL : K = L
      · subst hKL
        rw [Function.update_same]
        exact List.mem_cons_of_mem _ humem
      · rw [Function.update_noteq hKL]
        exact humem
  · -- emptyHigh
    intro K hK
    have hKL : ¬ K = L := by omega
    rw [Function.update_noteq hKL]
    exact hinv.emptyHigh K hK

/-- `pop_unprotected` preserves the pool invariant, removing and returning
the head and clearing its `worker_data_` and `prev_link_`. -/
lemma poolInv_pop {σ : Heap} {N : Nat} {ls : Nat → List TaskId} {L : Nat}
    (hinv : PoolInv σ N ls) (hL : L < N) :
    PoolInv (popUnprotected σ L).1 N (Function.update ls L (ls L).tail) ∧
    (popUnprotected σ L).2 = (ls L).head? ∧
    (∀ res, (ls L).head? = some res →
      (popUnprotected σ L).1.nodes res = ⟨(σ.nodes res).next, none, none⟩) := by
  have hhead : σ.heads L = (ls L).head? := by
    have := rep_head_eq (hinv.lists L hL)
    rwa [readSlot_head] at this
  refine ⟨?_, by rw [pop_val, hhead], ?_⟩
  · cases hls : ls L with
    | nil =>
      have hh : σ.heads L = none := by rw [hhead, hls]; rfl
      rw [pop_empty σ L hh]
      simp only [List.tail_nil]
      have h1 : Function.update ls L ([] : List TaskId) = ls := by
        funext M
        by_cases hM : M = L
        · subst hM
          simp [hls]
        · simp [Function.update, hM]
      rw [h1]
      exact hinv
    | cons res rest =>
      have hh : σ.heads L = some res := by rw [hhead, hls]; rfl
      have hold := hinv.lists L hL
      rw [hls] at hold
      obtain ⟨o1, o2, o3, o4⟩ := hold
      have hnodup := hinv.nodup L hL
      rw [hls] at hnodup
      have hresrest : res ∉ rest := (List.nodup_cons.mp hnodup).1
      have hresmem : res ∈ ls L := by rw [hls]; exact List.mem_cons_self _ _
      have hrestmem : ∀ u ∈ rest, u ∈ ls L := by
        intro u hu
        rw [hls]
        exact List.mem_cons_of_mem _ hu
      constructor
      · -- lists
        intro K hK
        by_cases hKL : K = L
        · subst hKL
          rw [Function.update_same]
          simp only [List.tail_cons]
          show rep (popUnprotected σ K).1 K (.headSlot K) rest
          cases hrest : rest with
          | nil =>
            have hnext : (σ.nodes res).next = none := by
              rw [hrest] at o4
              exact o4
            show (popUnprotected σ K).1.readSlot (.headSlot K) = none
            rw [readSlot_head, pop_heads σ K res K hh]
            simp [hnext]
          | cons h2 rest2 =>
            rw [hrest] at o4
            obtain ⟨p1, p2, p3, p4⟩ := o4
            have hp1 : (σ.nodes res).next = some h2 := p1
            have hh2res : ¬ h2 = res := by
              intro hc
              rw [hrest] at hresrest
              exact hresrest (hc ▸ List.mem_cons_self h2 rest2)
            have hh2rest2 : h2 ∉ rest2 := by
              rw [hrest] at hnodup
              exact (List.nodup_cons.mp (List.nodup_cons.mp hnodup).2).1
            refine ⟨?_, ?_, ?_, ?_⟩
            · rw [readSlot_head, pop_heads σ K res K hh]
              simp [hp1]
            · rw [pop_nodes σ K res h2 hh]
              simp [hh2res, hp1]
            · rw [pop_nodes σ K res h2 hh]
              simp [hh2res, hp1, p3]
            · refine rep_congr ?_ ?_ p4
              · intro u hu
                have hures : ¬ u = res := by
                  intro hc
                  rw [hrest] at hresrest
                  exact hresrest (hc ▸ List.mem_cons_of_mem _ hu)
                have huh2 : ¬ (σ.nodes res).next = some u := by
                  rw [hp1]
                  intro hc
                  exact hh2rest2 ((Option.some.injEq _ _).mp hc ▸ hu)
                rw [pop_nodes σ K res u hh]
                simp [hures, huh2]
              · rw [readSlot_next, readSlot_next, pop_nodes σ K res h2 hh]
                simp [hh2res, hp1]
        · rw [Function.update_noteq hKL]
          refine rep_congr ?_ ?_ (hinv.lists K hK)
          · intro u hu
            have hures : ¬ u = res := by
              intro hc
              exact hKL (inv_disjoint hinv hK hL hu (hc ▸ hresmem))
            have hunx : ¬ (σ.nodes res).next = some u := by
              intro hc
              have humemL : u ∈ ls L := rep_next_mem (hinv.lists L hL) hresmem hc
              exact hKL (inv_disjoint hinv hK hL hu humemL)
            rw [pop_nodes σ L res u hh]
            simp [hures, hunx]
          · rw [readSlot_head, readSlot_head, pop_heads σ L res K hh]
            simp [hKL]
      · -- nodup
        intro K hK
        by_cases hKL : K = L
        · subst hKL
          rw [Function.update_same]
          simp only [List.tail_cons]
          exact (List.nodup_cons.mp hnodup).2
        · rw [Function.update_noteq hKL]
          exact hinv.nodup K hK
      · -- wdMem
        intro u K hu
        have hures : ¬ u = res := by
          intro hc
          subst hc
          rw [pop_nodes σ L u u hh] at hu
          simp at hu
        rw [pop_nodes σ L res u hh] at hu
        have hwdold : (σ.nodes u).workerData = some K := by
          by_cases hnx : (σ.nodes res).next = some u
          · simpa [hures, hnx] using hu
          · simpa [hures, hnx] using hu
        obtain ⟨hKN, humem⟩ := hinv.wdMem u K hwdold
        refine ⟨hKN, ?_⟩
        by_cases hKL : K = L
        · subst hKL
          rw [Function.update_same]
          simp only [List.tail_cons]
          rw [hls] at humem
          rcases List.mem_cons.mp humem with hc | h2
          · exact (hures hc).elim
          · exact h2
        · rw [Function.update_noteq hKL]
          exact humem
      · -- emptyHigh
        intro K hK
        have hKL : ¬ K = L := by omega
        rw [Function.update_noteq hKL]
        exact hinv.emptyHigh K hK
  · intro res hres
    have hh : σ.heads L = some res := by rw [hhead, hres]
    rw [pop_nodes σ L res res hh]
    simp

/-- Removing an interior element: if `σ'` differs from `σ` exactly by the
unlink writes of `extract_task` on `t` (back-pointer slot `s` redirected to
`t`'s successor, the successor's `prev_link_` set to `s`), then a list with
`t` removed is represented. -/
lemma rep_erase_aux {σ σ' : Heap} {M : Nat} {t : TaskId} {s : Slot}
    (hs : (σ.nodes t).prevLink = some s)
    (hst : σ.readSlot s = some t)
    (hH : ∀ K, σ'.heads K = if s = Slot.headSlot K then (σ.nodes t).next else σ.heads K)
    (hN : ∀ u, u ≠ t → σ'.nodes u =
      if (σ.nodes t).next = some u then { σ.nodes u with prevLink := some s }
      else if s = Slot.nextSlot u then { σ.nodes u with next := (σ.nodes t).next }
      else σ.nodes u) :
    ∀ (l₁ : List TaskId) {l₂ : List TaskId} {s₀ : Slot},
      rep σ M s₀ (l₁ ++ t :: l₂) → (l₁ ++ t :: l₂).Nodup →
      (∀ u, s₀ = Slot.nextSlot u → u ∉ l₁ ++ t :: l₂) →
      rep σ' M s₀ (l₁ ++ l₂) := by
  intro l₁
  induction l₁ with
  | nil =>
    intro l₂ s₀ hrep hnodup hs₀
    obtain ⟨r1, r2, r3, r4⟩ := hrep
    have hss₀ : s = s₀ := by
      rw [hs] at r2
      exact (Option.some.injEq _ _).mp r2
    subst hss₀
    simp only [List.nil_append] at hnodup hs₀ ⊢
    have htl2 : t ∉ l₂ := (List.nodup_cons.mp hnodup).1
    have hl2nd : l₂.Nodup := (List.nodup_cons.mp hnodup).2
    have hn2 : (σ.nodes t).next = l₂.head? := by
      have h := rep_head_eq r4
      rwa [readSlot_next] at h
    cases hl2 : l₂ with
    | nil =>
      rw [hl2] at hn2
      show σ'.readSlot s = none
      cases s with
      | headSlot K =>
        rw [readSlot_head, hH K]
        simp [hn2]
      | nextSlot v =>
        have hvt : v ≠ t := by
          intro hc
          exact hs₀ v rfl (by rw [hc]; exact List.mem_cons_self _ _)
        rw [readSlot_next, hN v hvt]
        simp [hn2]
    | cons nx l₂x =>
      rw [hl2] at hn2 htl2 hl2nd r4
      obtain ⟨q1, q2, q3, q4⟩ := r4
      have hnxt : nx ≠ t := by
        intro hc
        exact htl2 (hc ▸ List.mem_cons_self _ _)
      have hnxl2x : nx ∉ l₂x := (List.nodup_cons.mp hl2nd).1
      have htl2x : t ∉ l₂x := fun hc => htl2 (List.mem_cons_of_mem _ hc)
      refine ⟨?_, ?_, ?_, ?_⟩
      · cases s with
        | headSlot K =>
          rw [readSlot_head, hH K]
          simp [hn2]
        | nextSlot v =>
          have hvt : v ≠ t := by
            intro hc
            exact hs₀ v rfl (by rw [hc]; exact List.mem_cons_self _ _)
          have hvnx : ¬ v = nx := by
            intro hc
            exact hs₀ v rfl (by rw [hc, hl2]; exact List.mem_cons_of_mem _ (List.mem_cons_self _ _))
          have hb1 : ¬ (σ.nodes t).next = some v := by
            rw [hn2]
            intro hc
            exact hvnx ((Option.some.injEq _ _).mp hc).symm
          have hnxv : ¬ nx = v := fun hc => hvnx hc.symm
          rw [readSlot_next, hN v hvt]
          simp [hb1, hn2, hnxv]
      · rw [hN nx hnxt]
        simp [hn2]
      · rw [hN nx hnxt]
        simp [hn2, q3]
      · refine rep_congr ?_ ?_ q4
        · intro u hu
          have hut : u ≠ t := fun hc => htl2x (hc ▸ hu)
          have hb1 : ¬ (σ.nodes t).next = some u := by
            rw [hn2]
            intro hc
            exact hnxl2x (((Option.some.injEq _ _).mp hc) ▸ hu)
          have hb2 : ¬ s = Slot.nextSlot u := by
            intro hc
            rw [hc, readSlot_next] at hst
            have := rep_next_mem q4 hu hst
            exact htl2x this
          rw [hN u hut]
          simp [hb1, hb2]
        · rw [readSlot_next, readSlot_next, hN nx hnxt]
          simp [hn2]
  | cons u0 l₁x ih =>
    intro l₂ s₀ hrep hnodup hs₀
    obtain ⟨r1, r2, r3, r4⟩ := hrep
    simp only [List.cons_append, List.nodup_cons] at hnodup
    have hu0nin : u0 ∉ l₁x ++ t :: l₂ := hnodup.1
    have hnodup2 : (l₁x ++ t :: l₂).Nodup := hnodup.2
    have hu0t : u0 ≠ t := by
      intro hc
      exact hu0nin (hc ▸ List.mem_append_right _ (List.mem_cons_self _ _))
    have ihrep : rep σ' M (Slot.nextSlot u0) (l₁x ++ l₂) := by
      refine ih r4 hnodup2 ?_
      intro u hu
      have : u = u0 := ((Slot.nextSlot.injEq _ _).mp hu).symm
      rw [this]
      exact hu0nin
    obtain ⟨s2, hs2, hread2, hrepl2, _⟩ := rep_split l₁x r4
    have hs2s : s = s2 := by
      rw [hs] at hs2
      exact (Option.some.injEq _ _).mp hs2
    subst hs2s
    have hn2 : (σ.nodes t).next = l₂.head? := by
      have h := rep_head_eq hrepl2
      rwa [readSlot_next] at h
    show rep σ' M s₀ (u0 :: (l₁x ++ l₂))
    refine ⟨?_, ?_, ?_, ihrep⟩
    · -- the entry slot still reads u0
      cases hcs : s₀ with
      | headSlot K =>
        rw [readSlot_head, hH K]
        have hne : ¬ s = Slot.headSlot K := by
          intro hc
          rw [hc, readSlot_head] at hst
          rw [hcs, readSlot_head] at r1
          rw [hst] at r1
          exact hu0t ((Option.some.injEq _ _).mp r1).symm
        rw [hcs, readSlot_head] at r1
        simp [hne, r1]
      | nextSlot v =>
        have hvnin : v ∉ (u0 :: l₁x) ++ t :: l₂ := hs₀ v hcs
        have hvt : v ≠ t := by
          intro hc
          exact hvnin (hc ▸ List.mem_append_right _ (List.mem_cons_self _ _))
        have hb1 : ¬ (σ.nodes t).next = some v := by
          rw [hn2]
          intro hc
          have hvmem : v ∈ l₂ := List.mem_of_mem_head? hc
          exact hvnin (List.mem_append_right _ (List.mem_cons_of_mem _ hvmem))
        have hb2 : ¬ s = Slot.nextSlot v := by
          intro hc
          rw [hc] at hst
          rw [hcs] at r1
          rw [hst] at r1
          exact hu0t ((Option.some.injEq _ _).mp r1).symm
        rw [readSlot_next, hN v hvt]
        rw [hcs, readSlot_next] at r1
        simp [hb1, hb2, r1]
    · -- u0's fields other than possibly next are untouched
      have hb1 : ¬ (σ.nodes t).next = some u0 := by
        rw [hn2]
        intro hc
        have : u0 ∈ l₂ := List.mem_of_mem_head? hc
        exact hu0nin (List.mem_append_right _ (List.mem_cons_of_mem _ this))
      rw [hN u0 hu0t]
      by_cases hb2 : s = Slot.nextSlot u0
      · simp [hb1, hb2, r2]
      · simp [hb1, hb2, r2]
    · have hb1 : ¬ (σ.nodes t).next = some u0 := by
        rw [hn2]
        intro hc
        have : u0 ∈ l₂ := List.mem_of_mem_head? hc
        exact hu0nin (List.mem_append_right _ (List.mem_cons_of_mem _ this))
      rw [hN u0 hu0t]
      by_cases hb2 : s = Slot.nextSlot u0
      · simp [hb1, hb2, r3]
      · simp [hb1, hb2, r3]

/-- A successful `extract_task` preserves the pool invariant, erasing the
task from its line and detaching it. -/
lemma poolInv_extract {σ : Heap} {N : Nat} {ls : Nat → List TaskId} {t : TaskId} {M : Nat}
    (hinv : PoolInv σ N ls) (hwd : (σ.nodes t).workerData = some M) :
    (extractTask σ t).2 = true ∧
    PoolInv (extractTask σ t).1 N (fun K => (ls K).erase t) ∧
    (extractTask σ t).1.nodes t = ⟨(σ.nodes t).next, none, none⟩ := by
  obtain ⟨hMN, htmem⟩ := hinv.wdMem t M hwd
  obtain ⟨l₁, l₂, hsplit⟩ := List.append_of_mem htmem
  have hrepM := hinv.lists M hMN
  rw [hsplit] at hrepM
  have hnodupM := hinv.nodup M hMN
  rw [hsplit] at hnodupM
  obtain ⟨hnd1, hnd2, hdisj⟩ := List.nodup_append.mp hnodupM
  have htl₁ : t ∉ l₁ := fun hc => hdisj hc (List.mem_cons_self _ _)
  have htl₂ : t ∉ l₂ := (List.nodup_cons.mp hnd2).1
  obtain ⟨s, hs, hread, hrepl2, _⟩ := rep_split l₁ hrepM
  have hn2 : (σ.nodes t).next = l₂.head? := by
    have h := rep_head_eq hrepl2
    rwa [readSlot_next] at h
  have hst_ne : s ≠ Slot.nextSlot t := by
    intro hc
    rw [hc, readSlot_next, hn2] at hread
    exact htl₂ (List.mem_of_mem_head? hread)
  have hnxt : ∀ nx, (σ.nodes t).next = some nx → nx ≠ t ∧ s ≠ Slot.nextSlot nx := by
    intro nx hnx
    have hnxmem : nx ∈ l₂ := by
      rw [hn2] at hnx
      exact List.mem_of_mem_head? hnx
    constructor
    · intro hc
      exact htl₂ (hc ▸ hnxmem)
    · intro hc
      rw [hc, readSlot_next] at hread
      exact htl₂ (rep_next_mem hrepl2 hnxmem hread)
  have hself := extract_nodes_self σ t M s hwd hs hst_ne (fun nx h => (hnxt nx h).1)
  have hN : ∀ u, u ≠ t → (extractTask σ t).1.nodes u =
      if (σ.nodes t).next = some u then { σ.nodes u with prevLink := some s }
      else if s = Slot.nextSlot u then { σ.nodes u with next := (σ.nodes t).next }
      else σ.nodes u :=
    fun u hut => extract_nodes σ t M s u hwd hs hst_ne hnxt hut
  have hH : ∀ K, (extractTask σ t).1.heads K =
      if s = Slot.headSlot K then (σ.nodes t).next else σ.heads K :=
    fun K => extract_heads σ t M s K hwd hs hst_ne
  have hmemls : ∀ u, u ∈ l₂ → u ∈ ls M := by
    intro u hu
    rw [hsplit]
    exact List.mem_append_right _ (List.mem_cons_of_mem _ hu)
  refine ⟨extract_val σ t M s hwd hs, ?_, hself⟩
  constructor
  · -- lists
    intro K hK
    by_cases hKM : K = M
    · subst hKM
      have herase : (ls K).erase t = l₁ ++ l₂ := by
        rw [hsplit, List.erase_append_right _ htl₁, List.erase_cons_head]
      rw [herase]
      refine rep_erase_aux hs hread hH hN l₁ hrepM hnodupM ?_
      intro u hu
      cases hu
    · have htK : t ∉ ls K := by
        intro hc
        exact hKM (inv_disjoint hinv hK hMN hc htmem)
      have herase : (ls K).erase t = ls K := List.erase_of_not_mem htK
      rw [herase]
      refine rep_congr ?_ ?_ (hinv.lists K hK)
      · intro u hu
        have hut : u ≠ t := fun hc => htK (hc ▸ hu)
        have hb1 : ¬ (σ.nodes t).next = some u := by
          intro hc
          have humem2 : u ∈ l₂ := by
            rw [hn2] at hc
            exact List.mem_of_mem_head? hc
          exact hKM (inv_disjoint hinv hK hMN hu (hmemls u humem2))
        have hb2 : ¬ s = Slot.nextSlot u := by
          intro hc
          rw [hc, readSlot_next] at hread
          exact htK (rep_next_mem (hinv.lists K hK) hu hread)
        rw [hN u hut]
        simp [hb1, hb2]
      · rw [readSlot_head, readSlot_head, hH K]
        have hb3 : ¬ s = Slot.headSlot K := by
          intro hc
          rw [hc, readSlot_head] at hread
          have : t ∈ ls K := by
            have hh := rep_head_eq (hinv.lists K hK)
            rw [readSlot_head, hread] at hh
            exact List.mem_of_mem_head? hh.symm
          exact htK this
        simp [hb3]
  · -- nodup
    intro K hK
    exact (hinv.nodup K hK).erase t
  · -- wdMem
    intro u K hu
    by_cases hut : u = t
    · subst hut
      rw [hself] at hu
      cases hu
    · rw [hN u hut] at hu
      have hwdold : (σ.nodes u).workerData = some K := by
        by_cases hb1 : (σ.nodes t).next = some u
        · simpa [hb1] using hu
        · by_cases hb2 : s = Slot.nextSlot u
          · simpa [hb1, hb2] using hu
          · simpa [hb1, hb2] using hu
      obtain ⟨hKN, humem⟩ := hinv.wdMem u K hwdold
      exact ⟨hKN, (List.mem_erase_of_ne hut).mpr humem⟩
  · -- emptyHigh
    intro K hK
    rw [hinv.emptyHigh K hK]
    rfl

/-- Sum of line lengths after updating one line. -/
lemma sum_length_update (ls : Nat → List TaskId) (L : Nat) (v : List TaskId) (N : Nat)
    (hL : L < N) :
    ((Finset.range N).sum fun K => ((Function.update ls L v K).length : Int)) =
      ((Finset.range N).sum fun K => ((ls K).length : Int)) - (ls L).length + v.length := by
  have hmem : L ∈ Finset.range N := Finset.mem_range.mpr hL
  rw [← Finset.sum_erase_add _ _ hmem, ← Finset.sum_erase_add _ _ hmem]
  have h1 : ((Finset.range N).erase L).sum (fun K => ((Function.update ls L v K).length : Int)) =
      ((Finset.range N).erase L).sum (fun K => ((ls K).length : Int)) := by
    apply Finset.sum_congr rfl
    intro K hK
    rw [Function.update_noteq (Finset.mem_erase.mp hK).1]
  rw [h1, Function.update_same]
  ring

/-- Sum of line lengths after erasing a task that sits in line `M`. -/
lemma sum_length_erase {σ : Heap} {N : Nat} {ls : Nat → List TaskId} {t : TaskId} {M : Nat}
    (hinv : PoolInv σ N ls) (hM : M < N) (ht : t ∈ ls M) :
    ((Finset.range N).sum fun K => (((ls K).erase t).length : Int)) =
      ((Finset.range N).sum fun K => ((ls K).length : Int)) - 1 := by
  have hmem : M ∈ Finset.range N := Finset.mem_range.mpr hM
  rw [← Finset.sum_erase_add _ _ hmem, ← Finset.sum_erase_add _ _ hmem]
  have h1 : ((Finset.range N).erase M).sum (fun K => (((ls K).erase t).length : Int)) =
      ((Finset.range N).erase M).sum (fun K => ((ls K).length : Int)) := by
    apply Finset.sum_congr rfl
    intro K hK
    obtain ⟨hKM, hKN⟩ := Finset.mem_erase.mp hK
    have htK : t ∉ ls K := by
      intro hc
      exact hKM (inv_disjoint hinv (Finset.mem_range.mp hKN) hM hc ht)
    rw [List.erase_of_not_mem htK]
  rw [h1, List.length_erase_of_mem ht]
  have hpos : 0 < (ls M).length := List.length_pos_of_mem ht
  have : ((((ls M).length - 1 : Nat)) : Int) = ((ls M).length : Int) - 1 := by
    omega
  rw [this]
  ring

/-- The empty pool satisfies the invariant with all lines empty. -/
lemma poolInv_empty (N : Nat) : PoolInv Heap.empty N (fun _ => []) := by
  refine ⟨?_, ?_, ?_, ?_⟩
  · intro L _
    show Heap.empty.readSlot (.headSlot L) = none
    rfl
  · intro L _
    exact List.nodup_nil
  · intro t L h
    cases h
  · intro L _
    rfl

/-- Where does a back-pointer point: for an interior element of a represented
list, a `nextSlot` back-pointer names an element before it (or the entry). -/
lemma rep_split_prev {σ : Heap} {L : Nat} {t : TaskId} :
    ∀ (l₁ : List TaskId) {l₂ : List TaskId} {s₀ : Slot},
      rep σ L s₀ (l₁ ++ t :: l₂) →
      ∀ v, (σ.nodes t).prevLink = some (Slot.nextSlot v) →
        v ∈ l₁ ∨ s₀ = Slot.nextSlot v := by
  intro l₁
  induction l₁ with
  | nil =>
    intro l₂ s₀ h v hv
    rw [h.2.1] at hv
    exact Or.inr ((Option.some.injEq _ _).mp hv)
  | cons u0 rest ih =>
    intro l₂ s₀ h v hv
    rcases ih h.2.2.2 v hv with hmem | heq
    · exact Or.inl (List.mem_cons_of_mem _ hmem)
    · have : v = u0 := ((Slot.nextSlot.injEq _ _).mp heq).symm
      exact Or.inl (this ▸ List.mem_cons_self _ _)

/-- One step of the pool: invariant preservation, abstract-list tracking and
the `num_tasks_` accounting. -/
lemma poolInv_step {N : Nat} {p : MPool} {ls : Nat → List TaskId} {op : Op}
    (hinv : PoolInv p.heap N ls)
    (hcnt : p.numTasks = ((Finset.range N).sum fun K => ((ls K).length : Int)))
    (hvalid : validOp N p.heap op = true) :
    PoolInv (applyOp p op).1.heap N (applyAbs ls op) ∧
    (applyOp p op).1.numTasks =
      ((Finset.range N).sum fun K => ((applyAbs ls op K).length : Int)) := by
  cases op with
  | push L u =>
    simp only [validOp, Bool.and_eq_true, decide_eq_true_eq] at hvalid
    obtain ⟨hL, hwd⟩ := hvalid
    refine ⟨poolInv_push hinv hL hwd, ?_⟩
    show p.numTasks + 1 = _
    rw [show applyAbs ls (Op.push L u) = Function.update ls L (u :: ls L) from rfl,
      sum_length_update ls L (u :: ls L) N hL, hcnt]
    simp only [List.length_cons]
    push_cast
    ring
  | tryPop L =>
    simp only [validOp, decide_eq_true_eq] at hvalid
    obtain ⟨hinv2, hval, _⟩ := poolInv_pop hinv hvalid
    have habs : applyAbs ls (Op.tryPop L) = Function.update ls L (ls L).tail := rfl
    cases hls : ls L with
    | nil =>
      have hv2 : (popUnprotected p.heap L).2 = none := by rw [hval, hls]; rfl
      have hstate : (applyOp p (Op.tryPop L)).1 = ⟨(popUnprotected p.heap L).1, p.numTasks⟩ := by
        simp only [applyOp, hv2]
      rw [hstate, habs]
      refine ⟨hinv2, ?_⟩
      show p.numTasks = _
      rw [sum_length_update ls L (ls L).tail N hvalid, hcnt, hls]
      simp
    | cons res rest =>
      have hv2 : (popUnprotected p.heap L).2 = some res := by rw [hval, hls]; rfl
      have hstate : (applyOp p (Op.tryPop L)).1 =
          ⟨(popUnprotected p.heap L).1, p.numTasks - 1⟩ := by
        simp only [applyOp, hv2]
      rw [hstate, habs]
      refine ⟨hinv2, ?_⟩
      show p.numTasks - 1 = _
      rw [sum_length_update ls L (ls L).tail N hvalid, hcnt, hls]
      simp
      ring
  | extract u =>
    cases hwd : (p.heap.nodes u).workerData with
    | none =>
      have habs : ∀ K, applyAbs ls (Op.extract u) K = ls K := by
        intro K
        show (ls K).erase u = ls K
        by_cases hK : K < N
        · exact List.erase_of_not_mem (fun hc => by
            have := rep_mem_wd (hinv.lists K hK) hc
            rw [hwd] at this
            cases this)
        · rw [hinv.emptyHigh K (by omega)]
          rfl
      have habs2 : applyAbs ls (Op.extract u) = ls := funext habs
      have hstate : (applyOp p (Op.extract u)).1 = p := by
        show (poolExtract p u).1 = p
        unfold poolExtract
        rw [hwd]
      rw [hstate, habs2]
      exact ⟨hinv, hcnt⟩
    | some M =>
      obtain ⟨hMN, humem⟩ := hinv.wdMem u M hwd
      obtain ⟨hval2, hinv2, _⟩ := poolInv_extract hinv hwd
      have hstate : (applyOp p (Op.extract u)).1 =
          ⟨(extractTask p.heap u).1, p.numTasks - 1⟩ := by
        show (poolExtract p u).1 = _
        unfold poolExtract
        rw [hwd]
        simp [hval2]
      rw [hstate]
      refine ⟨hinv2, ?_⟩
      show p.numTasks - 1 = _
      have : applyAbs ls (Op.extract u) = fun K => (ls K).erase u := rfl
      rw [this, sum_length_erase hinv hMN humem, hcnt]

/-- Iterated version of `poolInv_step`. -/
lemma poolInv_steps {N : Nat} :
    ∀ (ops : List Op) (p : MPool) (ls : Nat → List TaskId),
      PoolInv p.heap N ls →
      p.numTasks = ((Finset.range N).sum fun K => ((ls K).length : Int)) →
      validSeq N p ops = true →
      PoolInv (applyOps p ops).1.heap N (applyAbsSeq ls ops) ∧
      (applyOps p ops).1.numTasks =
        ((Finset.range N).sum fun K => ((applyAbsSeq ls ops K).length : Int)) := by
  intro ops
  induction ops with
  | nil => intro p ls hinv hcnt _; exact ⟨hinv, hcnt⟩
  | cons op rest ih =>
    intro p ls hinv hcnt hvalid
    rw [validSeq, Bool.and_eq_true] at hvalid
    obtain ⟨hv1, hv2⟩ := hvalid
    obtain ⟨hinv2, hcnt2⟩ := poolInv_step hinv hcnt hv1
    have h := ih (applyOp p op).1 (applyAbs ls op) hinv2 hcnt2 hv2
    exact h

/-- A detached task stays detached and is never handed to a worker by any
valid operation sequence that does not push it again. -/
lemma not_executed {N : Nat} :
    ∀ (ops : List Op) (p : MPool) (ls : Nat → List TaskId) (t : TaskId),
      PoolInv p.heap N ls →
      (p.heap.nodes t).workerData = none →
      validSeq N p ops = true →
      (∀ L, Op.push L t ∉ ops) →
      t ∉ (applyOps p ops).2 ∧ ((applyOps p ops).1.heap.nodes t).workerData = none := by
  intro ops
  induction ops with
  | nil =>
    intro p ls t _ hwd _ _
    exact ⟨by simp [applyOps], hwd⟩
  | cons op rest ih =>
    intro p ls t hinv hwd hvalid hnopush
    rw [validSeq, Bool.and_eq_true] at hvalid
    obtain ⟨hv1, hv2⟩ := hvalid
    have hnot : ∀ M, M < N → t ∉ ls M := inv_not_mem hinv hwd
    have hnopush2 : ∀ L, Op.push L t ∉ rest := by
      intro L hc
      exact hnopush L (List.mem_cons_of_mem _ hc)
    have hmain :
        ((applyOp p op).2 = some t → False) ∧
        ((applyOp p op).1.heap.nodes t).workerData = none ∧
        ∃ ls2, PoolInv (applyOp p op).1.heap N ls2 := by
      cases op with
      | push L u =>
        simp only [validOp, Bool.and_eq_true, decide_eq_true_eq] at hv1
        obtain ⟨hL, hwdu⟩ := hv1
        have hut : ¬ u = t := by
          intro hc
          exact hnopush L (by rw [← hc]; exact List.mem_cons_self _ _)
        have hheadne : ¬ p.heap.heads L = some t := by
          intro hc
          have hh := rep_head_eq (hinv.lists L hL)
          rw [readSlot_head, hc] at hh
          exact hnot L hL (List.mem_of_mem_head? hh.symm)
        refine ⟨by simp [applyOp], ?_, ?_⟩
        · show ((pushUnprotected p.heap L u).nodes t).workerData = none
          rw [push_nodes]
          have htu : ¬ t = u := fun hc => hut hc.symm
          simp [htu, hheadne, hwd]
        · exact ⟨_, poolInv_push hinv hL hwdu⟩
      | tryPop L =>
        simp only [validOp, decide_eq_true_eq] at hv1
        obtain ⟨hinv2, hval, _⟩ := poolInv_pop hinv hv1
        have habs : (applyOp p (Op.tryPop L)).1.heap = (popUnprotected p.heap L).1 := by
          simp only [applyOp]
          cases hc : (popUnprotected p.heap L).2 <;> rfl
        have hvalne : (popUnprotected p.heap L).2 ≠ some t := by
          rw [hval]
          intro hc
          exact hnot L hv1 (List.mem_of_mem_head? hc)
        refine ⟨?_, ?_, ⟨_, habs ▸ hinv2⟩⟩
        · intro hc
          have : (popUnprotected p.heap L).2 = some t := by
            simp only [applyOp] at hc
            cases hc2 : (popUnprotected p.heap L).2 with
            | none => rw [hc2] at hc; simp at hc
            | some r =>
              rw [hc2] at hc
              simp at hc
              rw [hc]
          exact hvalne this
        · rw [habs]
          cases hls : ls L with
          | nil =>
            have hh : p.heap.heads L = none := by
              have hh := rep_head_eq (hinv.lists L hv1)
              rw [readSlot_head, hls] at hh
              exact hh
            rw [pop_empty _ _ hh]
            exact hwd
          | cons res rest2 =>
            have hh : p.heap.heads L = some res := by
              have hh := rep_head_eq (hinv.lists L hv1)
              rw [readSlot_head, hls] at hh
              exact hh
            have hres : res ∈ ls L := by
              rw [hls]
              exact List.mem_cons_self _ _
            have htres : ¬ t = res := by
              intro hc
              exact hnot L hv1 (hc ▸ hres)
            have htnx : ¬ (p.heap.nodes res).next = some t := by
              intro hc
              exact hnot L hv1 (rep_next_mem (hinv.lists L hv1) hres hc)
            rw [pop_nodes _ _ res t hh]
            simp [htres, htnx, hwd]
      | extract u =>
        by_cases hu : u = t
        · subst hu
          have hstate : (applyOp p (Op.extract u)).1 = p := by
            show (poolExtract p u).1 = p
            unfold poolExtract
            rw [hwd]
          refine ⟨by simp [applyOp], ?_, ⟨ls, ?_⟩⟩
          · rw [hstate]
            exact hwd
          · rw [hstate]
            exact hinv
        · cases hwdu : (p.heap.nodes u).workerData with
          | none =>
            have hstate : (applyOp p (Op.extract u)).1 = p := by
              show (poolExtract p u).1 = p
              unfold poolExtract
              rw [hwdu]
            refine ⟨by simp [applyOp], by rw [hstate]; exact hwd, ⟨ls, by rw [hstate]; exact hinv⟩⟩
          | some M =>
            obtain ⟨hMN, humem⟩ := hinv.wdMem u M hwdu
            obtain ⟨hval2, hinv2, _⟩ := poolInv_extract hinv hwdu
            have hstate : (applyOp p (Op.extract u)).1.heap = (extractTask p.heap u).1 := by
              show (poolExtract p u).1.heap = _
              unfold poolExtract
              rw [hwdu]
              simp [hval2]
            refine ⟨by simp [applyOp], ?_, ⟨_, hstate ▸ hinv2⟩⟩
            rw [hstate]
            -- recover the unlink footprint of the extract
            obtain ⟨l₁, l₂, hsplit⟩ := List.append_of_mem humem
            have hrepM := hinv.lists M hMN
            rw [hsplit] at hrepM
            have hnodupM := hinv.nodup M hMN
            rw [hsplit] at hnodupM
            obtain ⟨hnd1, hnd2, hdisj⟩ := List.nodup_append.mp hnodupM
            have hul₁ : u ∉ l₁ := fun hc => hdisj hc (List.mem_cons_self _ _)
            have hul₂ : u ∉ l₂ := (List.nodup_cons.mp hnd2).1
            obtain ⟨s, hsu, hread, hrepl2, _⟩ := rep_split l₁ hrepM
            have hn2 : (p.heap.nodes u).next = l₂.head? := by
              have hh := rep_head_eq hrepl2
              rwa [readSlot_next] at hh
            have hst_ne : s ≠ Slot.nextSlot u := by
              intro hc
              rw [hc, readSlot_next, hn2] at hread
              exact hul₂ (List.mem_of_mem_head? hread)
            have hnxt : ∀ nx, (p.heap.nodes u).next = some nx →
                nx ≠ u ∧ s ≠ Slot.nextSlot nx := by
              intro nx hnx
              have hnxmem : nx ∈ l₂ := by
                rw [hn2] at hnx
                exact List.mem_of_mem_head? hnx
              refine ⟨fun hc => hul₂ (hc ▸ hnxmem), ?_⟩
              intro hc
              rw [hc, readSlot_next] at hread
              exact hul₂ (rep_next_mem hrepl2 hnxmem hread)
            have htu : t ≠ u := fun hc => hu hc.symm
            rw [extract_nodes p.heap u M s t hwdu hsu hst_ne hnxt htu]
            have hb1 : ¬ (p.heap.nodes u).next = some t := by
              rw [hn2]
              intro hc
              have : t ∈ ls M := by
                rw [hsplit]
                exact List.mem_append_right _
                  (List.mem_cons_of_mem _ (List.mem_of_mem_head? hc))
              exact hnot M hMN this
            have hb2 : ¬ s = Slot.nextSlot t := by
              intro hc
              rcases rep_split_prev l₁ hrepM t (hc ▸ hsu) with hmem | habs
              · have : t ∈ ls M := by
                  rw [hsplit]
                  exact List.mem_append_left _ hmem
                exact hnot M hMN this
              · cases habs
            simp [hb1, hb2, hwd]
    obtain ⟨hne, hwd2, ls2, hinv3⟩ := hmain
    obtain ⟨ihne, ihwd⟩ := ih (applyOp p op).1 ls2 t hinv3 hwd2 hv2 hnopush2
    constructor
    · show t ∉ (applyOp p op).2.toList ++ (applyOps (applyOp p op).1 rest).2
      intro hc
      rcases List.mem_append.mp hc with hc1 | hc2
      · cases ho : (applyOp p op).2 with
        | none => rw [ho] at hc1; simp at hc1
        | some r =>
          rw [ho] at hc1
          simp at hc1
          exact hne (by rw [ho, hc1])
      · exact ihne hc2
    · exact ihwd

/-- Each member of a represented list has a back-pointer that dereferences to
itself and carries the line as `worker_data_`. -/
lemma rep_reach {σ : Heap} {L : Nat} {s₀ : Slot} {l : List TaskId}
    (h : rep σ L s₀ l) (t : TaskId) (ht : t ∈ l) :
    (∃ s, (σ.nodes t).prevLink = some s ∧ σ.readSlot s = some t) ∧
    (σ.nodes t).workerData = some L := by
  obtain ⟨l₁, l₂, rfl⟩ := List.append_of_mem ht
  obtain ⟨s, hs, hread, _, hwd⟩ := rep_split l₁ h
  exact ⟨⟨s, hs, hread⟩, hwd⟩

/-- C6: for every work line, after any valid sequence of push / try_push /
try_pop / extract operations from the empty pool: every node reachable from
the line's head has `prev_link_` dereferencing to the pointer slot that
points to it and `worker_data_` equal to this work line; `push` prepends at
the head (LIFO); `try_pop` removes and returns the head (null on an empty
line) and clears the popped node's `worker_data_` and `prev_link_`. -/
theorem c6_work_line_invariant (N : Nat) (ops : List Op)
    (hvalid : validSeq N ⟨Heap.empty, 0⟩ ops = true) :
    (∀ L, L < N → ∀ t, t ∈ applyAbsSeq (fun _ => []) ops L →
      (∃ s, ((applyOps ⟨Heap.empty, 0⟩ ops).1.heap.nodes t).prevLink = some s ∧
        (applyOps ⟨Heap.empty, 0⟩ ops).1.heap.readSlot s = some t) ∧
      ((applyOps ⟨Heap.empty, 0⟩ ops).1.heap.nodes t).workerData = some L) ∧
    (∀ (σ : Heap) (ls : Nat → List TaskId) (L : Nat) (t : TaskId),
      PoolInv σ N ls → L < N → (σ.nodes t).workerData = none →
      rep (pushUnprotected σ L t) L (.headSlot L) (t :: ls L)) ∧
    (∀ (σ : Heap) (ls : Nat → List TaskId) (L : Nat),
      PoolInv σ N ls → L < N →
      (popUnprotected σ L).2 = (ls L).head? ∧
      rep (popUnprotected σ L).1 L (.headSlot L) (ls L).tail ∧
      ∀ res, (ls L).head? = some res →
        ((popUnprotected σ L).1.nodes res).workerData = none ∧
        ((popUnprotected σ L).1.nodes res).prevLink = none) := by
  refine ⟨?_, ?_, ?_⟩
  · have h := poolInv_steps ops ⟨Heap.empty, 0⟩ (fun _ => []) (poolInv_empty N) (by simp) hvalid
    intro L hL t ht
    exact rep_reach (h.1.lists L hL) t ht
  · intro σ ls L t hinv hL hwd
    have h := (poolInv_push hinv hL hwd).lists L hL
    rwa [Function.update_same] at h
  · intro σ ls L hinv hL
    obtain ⟨hinv2, hval, hclear⟩ := poolInv_pop hinv hL
    refine ⟨hval, ?_, ?_⟩
    · have h := hinv2.lists L hL
      rwa [Function.update_same] at h
    · intro res hres
      rw [hclear res hres]
      exact ⟨rfl, rfl⟩

/-- Witness for C6 at a concrete run: push task 5 on line 0 of a 1-line
pool; the node is reachable with a correct back-pointer and owner. -/
theorem c6_work_line_invariant_witness :
    (∃ s, ((applyOps ⟨Heap.empty, 0⟩ [Op.push 0 5]).1.heap.nodes 5).prevLink = some s ∧
      (applyOps ⟨Heap.empty, 0⟩ [Op.push 0 5]).1.heap.readSlot s = some 5) ∧
    ((applyOps ⟨Heap.empty, 0⟩ [Op.push 0 5]).1.heap.nodes 5).workerData = some 0 :=
  (c6_work_line_invariant 1 [Op.push 0 5] (by decide)).1 0 (by decide) 5 (by
    show 5 ∈ applyAbsSeq (fun _ => []) [Op.push 0 5] 0
    simp [applyAbsSeq, applyAbs])

/-- C7: `extract_task(t)` on the pool succeeds iff `t` is currently in some
work line; on success `t` is unlinked, its `worker_data_` and `prev_link_`
cleared, `num_tasks_` decremented, and `t` is never handed to a worker by any
later valid operations that do not re-push it; on failure the pool is
unchanged. -/
theorem c7_pool_extract (N : Nat) (σ : Heap) (ls : Nat → List TaskId) (nt : Int) (t : TaskId)
    (hinv : PoolInv σ N ls) :
    ((poolExtract ⟨σ, nt⟩ t).2 = true ↔ ∃ L, L < N ∧ t ∈ ls L) ∧
    ((poolExtract ⟨σ, nt⟩ t).2 = false → poolExtract ⟨σ, nt⟩ t = (⟨σ, nt⟩, false)) ∧
    (∀ M, (σ.nodes t).workerData = some M →
      M < N ∧ t ∈ ls M ∧
      (poolExtract ⟨σ, nt⟩ t).2 = true ∧
      (poolExtract ⟨σ, nt⟩ t).1.numTasks = nt - 1 ∧
      PoolInv (poolExtract ⟨σ, nt⟩ t).1.heap N (fun K => (ls K).erase t) ∧
      ((poolExtract ⟨σ, nt⟩ t).1.heap.nodes t).workerData = none ∧
      ((poolExtract ⟨σ, nt⟩ t).1.heap.nodes t).prevLink = none) ∧
    (∀ ops : List Op, validSeq N (poolExtract ⟨σ, nt⟩ t).1 ops = true →
      (∀ L, Op.push L t ∉ ops) →
      t ∉ (applyOps (poolExtract ⟨σ, nt⟩ t).1 ops).2) := by
  have hsome : ∀ M, (σ.nodes t).workerData = some M →
      (poolExtract ⟨σ, nt⟩ t).1 = ⟨(extractTask σ t).1, nt - 1⟩ ∧
      (poolExtract ⟨σ, nt⟩ t).2 = true := by
    intro M hwd
    obtain ⟨hval2, _, _⟩ := poolInv_extract hinv hwd
    constructor
    · show (poolExtract ⟨σ, nt⟩ t).1 = _
      unfold poolExtract
      rw [hwd]
      simp [hval2]
    · show (poolExtract ⟨σ, nt⟩ t).2 = true
      unfold poolExtract
      rw [hwd]
      simp [hval2]
  have hnone : (σ.nodes t).workerData = none →
      poolExtract ⟨σ, nt⟩ t = (⟨σ, nt⟩, false) := by
    intro hwd
    unfold poolExtract
    rw [hwd]
  refine ⟨?_, ?_, ?_, ?_⟩
  · constructor
    · intro hres
      cases hwd : (σ.nodes t).workerData with
      | none =>
        rw [hnone hwd] at hres
        cases hres
      | some M =>
        obtain ⟨hMN, hmem⟩ := hinv.wdMem t M hwd
        exact ⟨M, hMN, hmem⟩
    · intro ⟨L, hL, hmem⟩
      have hwd := rep_mem_wd (hinv.lists L hL) hmem
      exact (hsome L hwd).2
  · intro hres
    cases hwd : (σ.nodes t).workerData with
    | none => exact hnone hwd
    | some M =>
      rw [(hsome M hwd).2] at hres
      cases hres
  · intro M hwd
    obtain ⟨hMN, hmem⟩ := hinv.wdMem t M hwd
    obtain ⟨hval2, hinv2, hself⟩ := poolInv_extract hinv hwd
    obtain ⟨hstate, hres⟩ := hsome M hwd
    rw [hstate]
    exact ⟨hMN, hmem, hres, rfl, hinv2, by rw [hself], by rw [hself]⟩
  · intro ops hvalid hnopush
    cases hwd : (σ.nodes t).workerData with
    | none =>
      rw [hnone hwd] at hvalid ⊢
      exact (not_executed ops ⟨σ, nt⟩ ls t hinv hwd hvalid hnopush).1
    | some M =>
      obtain ⟨hval2, hinv2, hself⟩ := poolInv_extract hinv hwd
      obtain ⟨hstate, _⟩ := hsome M hwd
      rw [hstate] at hvalid ⊢
      refine (not_executed ops ⟨(extractTask σ t).1, nt - 1⟩ (fun K => (ls K).erase t) t
        hinv2 ?_ hvalid hnopush).1
      show ((extractTask σ t).1.nodes t).workerData = none
      rw [hself]

/-- Witness for C7: extracting task 3 out of a freshly pushed 1-line pool
succeeds and decrements the counter; extracting a detached task fails. -/
theorem c7_pool_extract_witness :
    (poolExtract ⟨pushUnprotected Heap.empty 0 3, 1⟩ 3).2 = true ∧
    (poolExtract ⟨pushUnprotected Heap.empty 0 3, 1⟩ 3).1.numTasks = 0 ∧
    (poolExtract ⟨Heap.empty, 0⟩ 7).2 = false := by
  have hinv : PoolInv (pushUnprotected Heap.empty 0 3) 1 (Function.update (fun _ => []) 0 [3]) :=
    poolInv_push (poolInv_empty 1) (by decide) (by decide)
  have h := c7_pool_extract 1 (pushUnprotected Heap.empty 0 3)
    (Function.update (fun _ => []) 0 [3]) 1 3 hinv
  have h2 := c7_pool_extract 1 Heap.empty (fun _ => []) 0 7 (poolInv_empty 1)
  obtain ⟨_, _, h3, _⟩ := h
  obtain ⟨hm1, hm2, hm3, hm4, _⟩ := h3 0 (by decide)
  refine ⟨hm3, by rw [hm4]; decide, ?_⟩
  by_cases hc : (poolExtract ⟨Heap.empty, 0⟩ 7).2 = true
  · obtain ⟨L, hL, hmem⟩ := h2.1.mp hc
    simp at hmem
  · simpa using hc

/-- C10: in every quiescent pool state reached by a valid operation sequence
from the empty pool, `num_tasks_` equals the total number of tasks across all
work lines; it moves by +1 per enqueue (inside `notify_one`), by −1 per task
a worker pops for execution and per successful `extract_task`, and not at all
on failed extracts or empty pops. -/
theorem c10_num_tasks_accounting (N : Nat) (ops : List Op)
    (hvalid : validSeq N ⟨Heap.empty, 0⟩ ops = true) :
    (applyOps ⟨Heap.empty, 0⟩ ops).1.numTasks =
      ((Finset.range N).sum fun K => (((applyAbsSeq (fun _ => []) ops K).length : Int))) ∧
    (∀ (p : MPool) (L : Nat) (u : TaskId),
      (applyOp p (Op.push L u)).1.numTasks = p.numTasks + 1) ∧
    (∀ (p : MPool) (L : Nat),
      (applyOp p (Op.tryPop L)).1.numTasks =
        (if (popUnprotected p.heap L).2 = none then p.numTasks else p.numTasks - 1)) ∧
    (∀ (p : MPool) (u : TaskId),
      (applyOp p (Op.extract u)).1.numTasks =
        (if (poolExtract p u).2 = true then p.numTasks - 1 else p.numTasks)) := by
  refine ⟨?_, ?_, ?_, ?_⟩
  · exact (poolInv_steps ops ⟨Heap.empty, 0⟩ (fun _ => []) (poolInv_empty N)
      (by simp) hvalid).2
  · intro p L u
    rfl
  · intro p L
    show (applyOp p (Op.tryPop L)).1.numTasks = _
    simp only [applyOp]
    cases hc : (popUnprotected p.heap L).2 <;> simp [hc]
  · intro p u
    show (poolExtract p u).1.numTasks = _
    cases hwd : (p.heap.nodes u).workerData with
    | none =>
      have h1 : poolExtract p u = (p, false) := by
        unfold poolExtract
        rw [hwd]
      rw [h1]
      simp
    | some M =>
      cases hc : (extractTask p.heap u).2 with
      | true =>
        have h1 : poolExtract p u =
            (⟨(extractTask p.heap u).1, p.numTasks - 1⟩, true) := by
          unfold poolExtract
          rw [hwd]
          simp [hc]
        rw [h1]
        simp
      | false =>
        have h1 : poolExtract p u =
            ({ p with heap := (extractTask p.heap u).1 }, false) := by
          unfold poolExtract
          rw [hwd]
          simp [hc]
        rw [h1]
        simp

/-- Witness for C10: a push followed by a pop leaves the counter at the total
size 0. -/
theorem c10_num_tasks_accounting_witness :
    (applyOps ⟨Heap.empty, 0⟩ [Op.push 0 2, Op.tryPop 0]).1.numTasks =
      ((Finset.range 1).sum fun K =>
        (((applyAbsSeq (fun _ => []) [Op.push 0 2, Op.tryPop 0] K).length : Int))) :=
  (c10_num_tasks_accounting 1 [Op.push 0 2, Op.tryPop 0] (by decide)).1

/-! ## The spawn/await rendezvous state machine

`spawn_frame_base` (spawn.h) holds `sync_state_`, the two
`concore2full_thread_suspension` slots and the user function;
`full_spawn_frame::to_execute` (spawn.h, lines 74-82) invokes the user
function and stores its result into the `value_holder` slot, and
`spawn_future::await` (spawn.h, lines 130-133) runs the frame's `await` and
then reads that slot.  The bodies of `spawn_frame_base::await` and
`on_async_complete` are not among the provided sources; those two steps are
modelled from the spec (§4.6): each performs an acq-rel `exchange` on
`sync_state`, the loser of the race parks its continuation in its suspension
slot, and the winner's continuation is resumed by the other party.  An
interleaving of the rendezvous is the order of the two exchanges. -/

/-- The values of `sync_state_`: 0 = neither party arrived, 1 = the spawner
reached `await` first, 2 = the worker finished first. -/
inductive SyncState where
  | start
  | mainFinished
  | asyncFinished
deriving DecidableEq, Repr

/-- The continuation handles in play during one spawn rendezvous. -/
inductive Cont where
  | spawnerK
  | workerK
deriving DecidableEq, Repr

/-- The spawn frame: `sync_state_`, the two suspension slots and the result
slot of the `value_holder`. -/
structure Frame (α : Type) where
  syncState : SyncState
  originator : Option Cont
  secondary : Option Cont
  result : Option α
deriving DecidableEq, Repr

/-- Modelled from the spec: `spawn` initializes the frame with
`sync_state = initial` and empty suspension slots, then enqueues the task. -/
def spawnInit (α : Type) : Frame α :=
  { syncState := .start, originator := none, secondary := none, result := none }

/-- `full_spawn_frame::to_execute`: invoke the user function and store its
result into the frame's `value_holder` slot. -/
def toExecute {α : Type} (f : Unit → α) (fr : Frame α) : Frame α :=
  { fr with result := some (f ()) }

/-- Outcome of `on_async_complete` on the worker side. -/
structure CompleteResult (α : Type) where
  frame : Frame α
  observed : SyncState
  resumes : Option Cont
  parkedSecondary : Bool
deriving DecidableEq, Repr

/-- Modelled from the spec: `on_async_complete(worker_k)` performs
`prev = sync_state.exchange(async_finished)`; on `prev = initial` it stores
`worker_k` into the secondary suspension and returns to the scheduling loop;
on `prev = main_finished` it loads the originator suspension and jumps to
it (thread inversion). -/
def onAsyncComplete {α : Type} (fr : Frame α) (workerCont : Cont) : CompleteResult α :=
  let prev := fr.syncState
  let fr1 : Frame α := { fr with syncState := .asyncFinished }
  match prev with
  | .start =>
    { frame := { fr1 with secondary := some workerCont },
      observed := prev, resumes := none, parkedSecondary := true }
  | .mainFinished =>
    { frame := fr1, observed := prev, resumes := fr1.originator, parkedSecondary := false }
  | .asyncFinished =>
    { frame := fr1, observed := prev, resumes := none, parkedSecondary := false }

/-- Outcome of the frame-level `await` on the spawner side. -/
structure AwaitResult (α : Type) where
  frame : Frame α
  observed : SyncState
  suspended : Bool
  resumes : Option Cont
deriving DecidableEq, Repr

/-- Modelled from the spec: `await` captures the current continuation,
stores it into the originator suspension, performs
`prev = sync_state.exchange(main_finished)`; on `prev = initial` it suspends
(the OS thread goes off to worker duties); on `prev = async_finished` it
loads the secondary suspension, resumes it, and `await` returns. -/
def awaitStep {α : Type} (fr : Frame α) (myCont : Cont) : AwaitResult α :=
  let fr1 : Frame α := { fr with originator := some myCont }
  let prev := fr1.syncState
  let fr2 : Frame α := { fr1 with syncState := .mainFinished }
  match prev with
  | .start => { frame := fr2, observed := prev, suspended := true, resumes := none }
  | .asyncFinished =>
    { frame := fr2, observed := prev, suspended := false, resumes := fr2.secondary }
  | .mainFinished => { frame := fr2, observed := prev, suspended := false, resumes := none }

/-- The worker's task body (`execute_spawn_task`): run the user function via
`to_execute`, then `on_async_complete`. -/
def workerRun {α : Type} (f : Unit → α) (fr : Frame α) : CompleteResult α :=
  onAsyncComplete (toExecute f fr) Cont.workerK

/-- The two interleavings of the rendezvous: which party performs its
exchange on `sync_state` first. -/
inductive Order where
  | workerFirst
  | awaitFirst
deriving DecidableEq, Repr

/-- Trace of one complete spawn/await rendezvous. -/
structure RunResult (α : Type) where
  frame : Frame α
  awaitObserved : SyncState
  workerObserved : SyncState
  awaitSuspended : Bool
  workerParked : Bool
  workerResumes : Option Cont
  awaitResumes : Option Cont
  awaitReturns : List α
deriving DecidableEq, Repr

/-- Run a full rendezvous under the given interleaving.  `awaitReturns`
collects the value produced each time `spawn_future::await` returns (either
directly, or because the worker jumped to the parked originator
continuation), reading the frame's result slot as `spawn_future::await`
does. -/
def runRendezvous {α : Type} (f : Unit → α) (ord : Order) : RunResult α :=
  let fr0 := spawnInit α
  match ord with
  | .workerFirst =>
    let wr := workerRun f fr0
    let ar := awaitStep wr.frame Cont.spawnerK
    { frame := ar.frame, awaitObserved := ar.observed, workerObserved := wr.observed,
      awaitSuspended := ar.suspended, workerParked := wr.parkedSecondary,
      workerResumes := wr.resumes, awaitResumes := ar.resumes,
      awaitReturns :=
        (if ar.suspended then [] else ar.frame.result.toList) ++
          (if wr.resumes = some Cont.spawnerK then wr.frame.result.toList else []) }
  | .awaitFirst =>
    let ar := awaitStep fr0 Cont.spawnerK
    let wr := workerRun f ar.frame
    { frame := wr.frame, awaitObserved := ar.observed, workerObserved := wr.observed,
      awaitSuspended := ar.suspended, workerParked := wr.parkedSecondary,
      workerResumes := wr.resumes, awaitResumes := ar.resumes,
      awaitReturns :=
        (if ar.suspended then [] else ar.frame.result.toList) ++
          (if wr.resumes = some Cont.spawnerK then wr.frame.result.toList else []) }

/-- C1: for every callable returning a pure value `v` and every interleaving
of the rendezvous, the future's `await` returns exactly the value stored by
`to_execute` — `v` — and returns it exactly once. -/
theorem c1_await_returns_spawned_value {α : Type} (v : α) (ord : Order) :
    (runRendezvous (fun _ => v) ord).awaitReturns = [v] ∧
    (runRendezvous (fun _ => v) ord).frame.result = some v := by
  cases ord <;>
    simp [runRendezvous, workerRun, awaitStep, onAsyncComplete, toExecute, spawnInit]

/-- C2: for every interleaving, the exchange on `sync_state` linearizes the
rendezvous: exactly one of `await` / `on_async_complete` observes `initial`
and parks its continuation in its own suspension slot, the other observes
the first party's value and resumes the parked continuation, and when
`await` returns the result slot holds the user function's value. -/
theorem c2_rendezvous_linearizes {α : Type} (f : Unit → α) (ord : Order) :
    ((runRendezvous f ord).awaitObserved = .start ∧
      (runRendezvous f ord).awaitSuspended = true ∧
      (runRendezvous f ord).frame.originator = some Cont.spawnerK ∧
      (runRendezvous f ord).workerObserved = .mainFinished ∧
      (runRendezvous f ord).workerParked = false ∧
      (runRendezvous f ord).workerResumes = some Cont.spawnerK
    ∨
      (runRendezvous f ord).workerObserved = .start ∧
      (runRendezvous f ord).workerParked = true ∧
      (runRendezvous f ord).frame.secondary = some Cont.workerK ∧
      (runRendezvous f ord).awaitObserved = .asyncFinished ∧
      (runRendezvous f ord).awaitSuspended = false ∧
      (runRendezvous f ord).awaitResumes = some Cont.workerK) ∧
    ¬((runRendezvous f ord).awaitObserved = .start ∧
      (runRendezvous f ord).workerObserved = .start) ∧
    (runRendezvous f ord).awaitReturns = [f ()] ∧
    (runRendezvous f ord).frame.result = some (f ()) := by
  cases ord with
  | workerFirst =>
    refine ⟨Or.inr ?_, ?_, ?_, ?_⟩ <;>
      simp [runRendezvous, workerRun, awaitStep, onAsyncComplete, toExecute, spawnInit]
  | awaitFirst =>
    refine ⟨Or.inl ?_, ?_, ?_, ?_⟩ <;>
      simp [runRendezvous, workerRun, awaitStep, onAsyncComplete, toExecute, spawnInit]

/-! ## Stack layout arithmetic (`allocate_stack`, `stack_control_structure`)

`allocate_stack` (context header) computes
`p = (sp - sizeof(control_t)) & ~align` with `align = alignof(control_t)`
and placement-news the control structure at `p`;
`stack_control_structure::stack_end` is 64 bytes below the control
structure, and `stack_begin` is `sp - size`.  For `align = 2^k` a power of
two, `x & ~align` clears exactly bit `k` of `x`. -/

/-- `x & ~(2^k)`: clear bit `k` of `x`. -/
def clearBitMask (x k : Nat) : Nat := if x.testBit k then x - 2 ^ k else x

/-- Address of the control structure: `(sp - sizeof(control_t)) & ~align`. -/
def controlAddr (sp szc k : Nat) : Nat := clearBitMask (sp - szc) k

/-- `stack_control_structure::stack_end`: the control address minus the
64-byte gap. -/
def stackEnd (ctrl : Nat) : Nat := ctrl - 64

/-- `stack_control_structure::stack_begin`: `sp - size`. -/
def stackBegin (sp size : Nat) : Nat := sp - size

/-- C9: for every allocated stack `{sp, size}` with `sp` ABI-aligned (hence
aligned to `alignof(control_t) = 2^k`, whose multiple `sizeof(control_t)`
is), and big enough to hold the control structure, the alignment slack and
the 64-byte gap: the control structure lands at the high end of the region,
aligned and inside the allocation, and the usable range
`[stack_begin, stack_end)` with `stack_end` exactly 64 bytes below the
control structure lies entirely inside the allocated region. -/
theorem c9_stack_layout (sp size szc k : Nat)
    (halign_sp : 2 ^ k ∣ sp)
    (halign_sz : 2 ^ k ∣ szc)
    (hsize : szc + 2 ^ k + 64 ≤ size)
    (hsp : size ≤ sp) :
    2 ^ k ∣ controlAddr sp szc k ∧
    controlAddr sp szc k + szc ≤ sp ∧
    stackBegin sp size ≤ controlAddr sp szc k ∧
    stackEnd (controlAddr sp szc k) + 64 = controlAddr sp szc k ∧
    stackBegin sp size ≤ stackEnd (controlAddr sp szc k) ∧
    stackEnd (controlAddr sp szc k) ≤ sp := by
  have hszsp : szc ≤ sp := by omega
  have hdx : 2 ^ k ∣ (sp - szc) := Nat.dvd_sub' halign_sp halign_sz
  have hbounds : (sp - szc) - 2 ^ k ≤ controlAddr sp szc k ∧
      controlAddr sp szc k ≤ sp - szc ∧ 2 ^ k ∣ controlAddr sp szc k := by
    unfold controlAddr clearBitMask
    by_cases hb : (sp - szc).testBit k
    · rw [if_pos hb]
      exact ⟨le_refl _, Nat.sub_le _ _, Nat.dvd_sub' hdx dvd_rfl⟩
    · rw [if_neg hb]
      exact ⟨Nat.sub_le _ _, le_refl _, hdx⟩
  obtain ⟨hb1, hb2, hdvd⟩ := hbounds
  unfold stackBegin stackEnd
  refine ⟨hdvd, by omega, by omega, by omega, by omega, by omega⟩

/-- Witness for C9 at a concrete layout: a 64 KiB stack below `sp = 2^20`,
a 256-byte control structure aligned to 16. -/
theorem c9_stack_layout_witness :
    2 ^ 4 ∣ controlAddr (2 ^ 20) 256 4 ∧
    controlAddr (2 ^ 20) 256 4 + 256 ≤ 2 ^ 20 ∧
    stackBegin (2 ^ 20) 65536 ≤ controlAddr (2 ^ 20) 256 4 ∧
    stackEnd (controlAddr (2 ^ 20) 256 4) + 64 = controlAddr (2 ^ 20) 256 4 ∧
    stackBegin (2 ^ 20) 65536 ≤ stackEnd (controlAddr (2 ^ 20) 256 4) ∧
    stackEnd (controlAddr (2 ^ 20) 256 4) ≤ 2 ^ 20 :=
  c9_stack_layout (2 ^ 20) 65536 256 4 (by decide) (by decide) (by decide) (by decide)

end Concore
